import Mathlib

/-!
Verification of the pure document core of the better-man-viewer repository
(`src/manParser.ts` and `src/types.ts`).

Strings are modelled as `List Char` (JavaScript strings restricted to their
character sequences; case mapping and whitespace are modelled on the ASCII
range, which is the range the code's heuristics target). Every JS function of
the module is translated to an executable Lean definition of the same name.
-/

/-- ASCII whitespace as matched by the JS regex class `\s` and by
`String.prototype.trim` on the ASCII range: space, tab, line feed, carriage
return, vertical tab, form feed. -/
def jsIsSpace (c : Char) : Bool :=
  c = ' ' || c = '\t' || c = '\n' || c = '\r' || c = Char.ofNat 11 || c = Char.ofNat 12

/-- `String.prototype.toLowerCase`, per character (ASCII range). -/
def jsToLower (s : List Char) : List Char := s.map Char.toLower

/-- `String.prototype.toUpperCase`, per character (ASCII range). -/
def jsToUpper (s : List Char) : List Char := s.map Char.toUpper

/-- `String.prototype.trim`: drop leading and trailing whitespace. -/
def jsTrim (s : List Char) : List Char :=
  ((s.dropWhile jsIsSpace).reverse.dropWhile jsIsSpace).reverse

/-- `rawText.replace(/\r\n/g, "\n")`: left-to-right replacement of each
carriage-return + line-feed pair by a line feed. -/
def replaceCRLF : List Char → List Char
  | [] => []
  | [c] => [c]
  | a :: b :: t => if a = '\r' ∧ b = '\n' then '\n' :: replaceCRLF t else a :: replaceCRLF (b :: t)

/-- `.replace(/\r/g, "\n")`: every remaining lone carriage return becomes a
line feed. -/
def replaceCR (s : List Char) : List Char :=
  s.map fun c => if c = '\r' then '\n' else c

/-- `if (lines.length > 0 && lines[lines.length - 1] === "") lines.pop()`:
drop a final empty element. -/
def popTrailingEmpty (lines : List (List Char)) : List (List Char) :=
  if lines.getLast? = some [] then lines.dropLast else lines

/-- `splitLines` of `manParser.ts`: normalize line endings, split on `\n`,
and drop a final empty element produced by a trailing terminator. -/
def splitLines (rawText : List Char) : List (List Char) :=
  if rawText = [] then []
  else popTrailingEmpty ((replaceCR (replaceCRLF rawText)).splitOn '\n')

/-- `Array.prototype.join("\n")` on a list of lines. -/
def joinNL : List (List Char) → List Char
  | [] => []
  | [l] => l
  | l :: ls => l ++ '\n' :: joinNL ls

/-! ### Lemmas about `splitLines` -/

theorem splitOnP_sound {p : Char → Bool} :
    ∀ (s : List Char), ∀ l ∈ s.splitOnP p, ∀ c ∈ l, p c = false := by
  intro s
  induction s with
  | nil =>
    intro l hl c hc
    simp only [List.splitOnP_nil, List.mem_singleton] at hl
    subst hl
    cases hc
  | cons a t ih =>
    intro l hl c hc
    rw [List.splitOnP_cons] at hl
    by_cases ha : p a
    · rw [if_pos ha] at hl
      rcases List.mem_cons.mp hl with h | h
      · subst h; cases hc
      · exact ih l h c hc
    · rw [if_neg ha] at hl
      rcases hsplit : t.splitOnP p with _ | ⟨h0, hs⟩
      · exact absurd hsplit (List.splitOnP_ne_nil p t)
      · rw [hsplit] at hl
        simp only [List.modifyHead_cons, List.mem_cons] at hl
        rcases hl with h | h
        · subst h
          rcases List.mem_cons.mp hc with h | h
          · subst h; exact Bool.of_not_eq_true ha
          · exact ih h0 (by rw [hsplit]; exact List.mem_cons_self _ _) c h
        · exact ih l (by rw [hsplit]; exact List.mem_cons_of_mem _ h) c hc

theorem splitOn_sound (s : List Char) (x : Char) :
    ∀ l ∈ s.splitOn x, x ∉ l := by
  intro l hl hmem
  have := splitOnP_sound (p := (· == x)) s l hl x hmem
  simp at this

theorem mem_splitOnP_subset {p : Char → Bool} :
    ∀ (s : List Char), ∀ l ∈ s.splitOnP p, ∀ c ∈ l, c ∈ s := by
  intro s
  induction s with
  | nil =>
    intro l hl c hc
    simp only [List.splitOnP_nil, List.mem_singleton] at hl
    subst hl
    cases hc
  | cons a t ih =>
    intro l hl c hc
    rw [List.splitOnP_cons] at hl
    by_cases ha : p a
    · rw [if_pos ha] at hl
      rcases List.mem_cons.mp hl with h | h
      · subst h; cases hc
      · exact List.mem_cons_of_mem _ (ih l h c hc)
    · rw [if_neg ha] at hl
      rcases hsplit : t.splitOnP p with _ | ⟨h0, hs⟩
      · exact absurd hsplit (List.splitOnP_ne_nil p t)
      · rw [hsplit] at hl
        simp only [List.modifyHead_cons, List.mem_cons] at hl
        rcases hl with h | h
        · subst h
          rcases List.mem_cons.mp hc with h | h
          · subst h; exact List.mem_cons_self _ _
          · exact List.mem_cons_of_mem _
              (ih h0 (by rw [hsplit]; exact List.mem_cons_self _ _) c h)
        · exact List.mem_cons_of_mem _ (ih l (by rw [hsplit]; exact List.mem_cons_of_mem _ h) c hc)

theorem replaceCR_no_cr (s : List Char) : '\r' ∉ replaceCR s := by
  intro h
  rcases List.mem_map.mp h with ⟨c, _, hc⟩
  by_cases hcr : c = '\r' <;> simp [hcr] at hc

/-- `replaceCRLF` is the identity on text with no carriage return. -/
theorem replaceCRLF_of_no_cr : ∀ (s : List Char), '\r' ∉ s → replaceCRLF s = s
  | [], _ => rfl
  | [_], _ => rfl
  | a :: b :: t, h => by
    have ha : a ≠ '\r' := fun hc => h (hc ▸ List.mem_cons_self _ _)
    have ht : '\r' ∉ b :: t := fun hc => h (List.mem_cons_of_mem _ hc)
    show (if a = '\r' ∧ b = '\n' then '\n' :: replaceCRLF t else a :: replaceCRLF (b :: t)) = _
    rw [if_neg (fun hc => ha hc.1)]
    exact congrArg _ (replaceCRLF_of_no_cr (b :: t) ht)

/-- `replaceCR` is the identity on text with no carriage return. -/
theorem replaceCR_of_no_cr (s : List Char) (h : '\r' ∉ s) : replaceCR s = s := by
  unfold replaceCR
  conv_rhs => rw [← List.map_id s]
  refine List.map_congr_left ?_
  intro c hc
  have : c ≠ '\r' := fun hc' => h (hc' ▸ hc)
  simp [this]

/-- Every line produced by `splitLines` contains neither `\n` nor `\r`. -/
theorem splitLines_no_terminators (rawText : List Char) :
    ∀ l ∈ splitLines rawText, '\n' ∉ l ∧ '\r' ∉ l := by
  intro l hl
  unfold splitLines at hl
  split at hl
  · cases hl
  · unfold popTrailingEmpty at hl
    have hmem : l ∈ (replaceCR (replaceCRLF rawText)).splitOn '\n' := by
      split at hl
      · exact List.dropLast_subset _ hl
      · exact hl
    refine ⟨splitOn_sound _ '\n' l hmem, ?_⟩
    intro hcr
    exact replaceCR_no_cr (replaceCRLF rawText)
      (mem_splitOnP_subset _ l hmem '\r' hcr)

/-- `joinNL` agrees with `List.intercalate` on the one-character separator. -/
theorem joinNL_eq_intercalate : ∀ (ls : List (List Char)), joinNL ls = ['\n'].intercalate ls
  | [] => rfl
  | [l] => by simp [joinNL, List.intercalate]
  | a :: b :: t => by
    show a ++ '\n' :: joinNL (b :: t) = _
    rw [joinNL_eq_intercalate (b :: t)]
    simp [List.intercalate]

theorem joinNL_no_cr : ∀ (ls : List (List Char)), (∀ l ∈ ls, '\r' ∉ l) → '\r' ∉ joinNL ls
  | [], _ => by simp [joinNL]
  | [l], h => by simpa [joinNL] using h l (List.mem_singleton.mpr rfl)
  | a :: b :: t, h => by
    show '\r' ∉ a ++ '\n' :: joinNL (b :: t)
    intro hmem
    rcases List.mem_append.mp hmem with h1 | h1
    · exact h a (List.mem_cons_self _ _) h1
    · rcases List.mem_cons.mp h1 with h2 | h2
      · cases h2
      · exact joinNL_no_cr (b :: t) (fun l hl => h l (List.mem_cons_of_mem _ hl)) h2

theorem joinNL_ne_nil_of_last (ls : List (List Char)) (hne : ls ≠ [])
    (hlast : ls.getLast? ≠ some []) : joinNL ls ≠ [] := by
  match ls, hne with
  | [a], _ =>
    have : a ≠ [] := by
      intro h; exact hlast (by simp [h])
    simpa [joinNL] using this
  | a :: b :: t, _ =>
    show a ++ '\n' :: joinNL (b :: t) ≠ []
    simp

/-- C5 fails on the one-character document `"\n"`: it splits to a single
empty line, which re-joins to the empty string and re-splits to no lines. -/
theorem c5_counterexample :
    splitLines (joinNL (splitLines ("\n").toList)) ≠ splitLines ("\n").toList := by
  decide

/-- C5 (amended): when the normalized line sequence does not end in an empty
line, `splitLines` is idempotent under re-joining with `"\n"` and
re-splitting. (A trailing empty line re-joins into a trailing terminator,
which the final-element pop then removes.) -/
theorem c5_amended (rawText : List Char)
    (h : (splitLines rawText).getLast? ≠ some []) :
    splitLines (joinNL (splitLines rawText)) = splitLines rawText := by
  rcases hls : splitLines rawText with _ | ⟨l0, ls⟩
  · simp [joinNL, List.intercalate, splitLines]
  · set lines := l0 :: ls with hlines
    rw [hls] at h
    have hnoterm := splitLines_no_terminators rawText
    rw [hls] at hnoterm
    have hnn : ∀ l ∈ lines, '\n' ∉ l := fun l hl => (hnoterm l hl).1
    have hnr : ∀ l ∈ lines, '\r' ∉ l := fun l hl => (hnoterm l hl).2
    have hjoin_ne : joinNL lines ≠ [] :=
      joinNL_ne_nil_of_last lines (by simp [hlines]) h
    have hjoin_nr : '\r' ∉ joinNL lines := joinNL_no_cr lines hnr
    unfold splitLines
    rw [if_neg hjoin_ne]
    rw [replaceCRLF_of_no_cr _ hjoin_nr, replaceCR_of_no_cr _ hjoin_nr]
    have hsplit : (joinNL lines).splitOn '\n' = lines := by
      rw [joinNL_eq_intercalate]
      exact List.splitOn_intercalate lines '\n' hnn (by simp [hlines])
    unfold popTrailingEmpty
    rw [hsplit, if_neg h]

/-- Witness for the amended C5 at the concrete document `"a\r\nb"`. -/
theorem c5_amended_witness :
    splitLines (joinNL (splitLines ("a\r\nb").toList)) = splitLines ("a\r\nb").toList :=
  c5_amended ("a\r\nb").toList (by decide)

/-! ### The search engine: `findMatches` -/

/-- A Find Match as in `types.ts` (`end` is a Lean keyword; the field is
named `endIdx` here). -/
structure FindMatch where
  lineIndex : Nat
  start : Nat
  endIdx : Nat
  preview : List Char
deriving DecidableEq

/-- A Filter Line as in `types.ts`. -/
structure FilterLine where
  lineIndex : Nat
  text : List Char
  matchCount : Nat
deriving DecidableEq

/-- `needle` begins the list `hay` (the substring test `indexOf` performs at
one candidate offset). -/
def listStarts : List Char → List Char → Bool
  | [], _ => true
  | _ :: _, [] => false
  | a :: as, b :: bs => a = b && listStarts as bs

/-- `normalizeForSearch` of `manParser.ts`. -/
def normalizeForSearch (value : List Char) (caseSensitive : Bool) : List Char :=
  if caseSensitive then value else jsToLower value

/-- `line.trim() || "(blank line)"`. -/
def previewOf (line : List Char) : List Char :=
  if jsTrim line = [] then ("(blank line)").toList else jsTrim line

/-- The inner `while` loop of `findMatches` on one line. `suffix` is the part
of the normalized line not yet scanned; `pos` is its absolute offset in the
line. `skip` counts the positions still covered by the previous match's
advance (`offset = nextIndex + max(needleRaw.length, 1)`): while it is
positive, positions are passed over without an occurrence test, exactly as
`indexOf` restarts from the advanced offset. `accRev` holds the pushed
matches in reverse and `count` its length (`matches.length`). The `Bool`
result is `true` when the 20,000 cap made the whole search return. -/
def scanLine (needle : List Char) (qlen lineIndex : Nat) (preview : List Char) :
    Nat → List Char → Nat → List FindMatch → Nat → List FindMatch × Nat × Bool
  | _, [], _, accRev, count => (accRev, count, false)
  | skip+1, _ :: rest, pos, accRev, count =>
    scanLine needle qlen lineIndex preview skip rest (pos+1) accRev count
  | 0, c :: rest, pos, accRev, count =>
    if listStarts needle (c :: rest) then
      if count + 1 > 20000 then
        (⟨lineIndex, pos, pos + qlen, preview⟩ :: accRev, count + 1, true)
      else
        scanLine needle qlen lineIndex preview (max qlen 1 - 1) rest (pos+1)
          (⟨lineIndex, pos, pos + qlen, preview⟩ :: accRev) (count+1)
    else
      scanLine needle qlen lineIndex preview 0 rest (pos+1) accRev count

/-- The outer `for` loop of `findMatches` over the lines. -/
def findMatchesGo (needle : List Char) (qlen : Nat) (caseSensitive : Bool) :
    List (List Char) → Nat → List FindMatch → Nat → List FindMatch
  | [], _, accRev, _ => accRev.reverse
  | line :: rest, lineIndex, accRev, count =>
    match scanLine needle qlen lineIndex (previewOf line) 0
        (normalizeForSearch line caseSensitive) 0 accRev count with
    | (acc2, count2, aborted) =>
      if aborted then acc2.reverse
      else findMatchesGo needle qlen caseSensitive rest (lineIndex+1) acc2 count2

/-- `findMatches` of `manParser.ts`. -/
def findMatches (lines : List (List Char)) (query : List Char)
    (caseSensitive : Bool) : List FindMatch :=
  if jsTrim query = [] then []
  else
    findMatchesGo (normalizeForSearch (jsTrim query) caseSensitive)
      (jsTrim query).length caseSensitive lines 0 [] 0

/-! ### The filter aggregation: `buildFilterLines` -/

/-- `Map.set`: replace the value at an existing key in place, else append. -/
def mapSet : List (Nat × Nat) → Nat → Nat → List (Nat × Nat)
  | [], k, v => [(k, v)]
  | (k', v') :: t, k, v => if k' = k then (k, v) :: t else (k', v') :: mapSet t k v

/-- `Map.get`. -/
def mapGet (l : List (Nat × Nat)) (k : Nat) : Option Nat :=
  (l.find? (fun e => e.1 = k)).map (·.2)

/-- Insertion step of sorting the count entries by numeric key
(`.sort((a, b) => a[0] - b[0])`; the keys are pairwise distinct). -/
def insertByKey (x : Nat × Nat) : List (Nat × Nat) → List (Nat × Nat)
  | [] => [x]
  | y :: ys => if x.1 ≤ y.1 then x :: y :: ys else y :: insertByKey x ys

/-- Sorting the count entries ascending by key. -/
def sortByKey (l : List (Nat × Nat)) : List (Nat × Nat) := l.foldr insertByKey []

/-- The `counts` map of `buildFilterLines`:
`counts.set(match.lineIndex, (counts.get(match.lineIndex) ?? 0) + 1)` folded
over the match list. -/
def countMatches (matchList : List FindMatch) : List (Nat × Nat) :=
  matchList.foldl
    (fun acc m => mapSet acc m.lineIndex ((mapGet acc m.lineIndex).getD 0 + 1)) []

/-- `buildFilterLines` of `manParser.ts`: per-line match counts, one entry
per distinct `lineIndex`, ascending (`matches` is a Lean keyword; the
parameter is named `matchList` here). -/
def buildFilterLines (lines : List (List Char)) (matchList : List FindMatch) :
    List FilterLine :=
  (sortByKey (countMatches matchList)).map (fun e => ⟨e.1, lines.getD e.1 [], e.2⟩)

/-! ### Lemmas about `findMatches` -/

theorem listStarts_iff : ∀ (n h : List Char), listStarts n h = true ↔ ∃ t, n ++ t = h
  | [], h => by simp [listStarts]
  | _ :: _, [] => by simp [listStarts]
  | a :: as, b :: bs => by
    simp only [listStarts, Bool.and_eq_true, decide_eq_true_eq]
    constructor
    · rintro ⟨rfl, h2⟩
      rcases (listStarts_iff as bs).mp h2 with ⟨t, rfl⟩
      exact ⟨t, rfl⟩
    · rintro ⟨t, ht⟩
      injection ht with h1 h2
      subst h1
      exact ⟨rfl, (listStarts_iff as bs).mpr ⟨t, h2⟩⟩

theorem normalizeForSearch_length (v : List Char) (cs : Bool) :
    (normalizeForSearch v cs).length = v.length := by
  cases cs <;> simp [normalizeForSearch, jsToLower]

/-- Core invariant of the inner scan loop: the running `count` tracks the
accumulator's length, and every accumulated match either was already there or
was pushed with the current line's index and preview, an `end` offset
`start + qlen`, and an occurrence of the needle at `start`. -/
theorem scanLine_spec (needle : List Char) (qlen li : Nat) (pv haystack : List Char) :
    ∀ (suffix : List Char) (skip pos : Nat) (accRev : List FindMatch) (count : Nat),
      suffix = haystack.drop pos → count = accRev.length →
      (scanLine needle qlen li pv skip suffix pos accRev count).2.1
          = (scanLine needle qlen li pv skip suffix pos accRev count).1.length ∧
      ∀ m ∈ (scanLine needle qlen li pv skip suffix pos accRev count).1,
        m ∈ accRev ∨
          (m.lineIndex = li ∧ m.preview = pv ∧ m.endIdx = m.start + qlen ∧
            listStarts needle (haystack.drop m.start) = true) := by
  intro suffix
  induction suffix with
  | nil =>
    intro skip pos accRev count _ h2
    refine ⟨by simpa [scanLine] using h2, ?_⟩
    intro m hm
    exact Or.inl (by simpa [scanLine] using hm)
  | cons c rest ih =>
    intro skip pos accRev count h1 h2
    have hrest : rest = haystack.drop (pos + 1) := by
      have : List.drop 1 (c :: rest) = List.drop 1 (haystack.drop pos) := by rw [← h1]
      simpa [List.drop_drop] using this
    cases skip with
    | succ skip' =>
      simpa [scanLine] using ih skip' (pos + 1) accRev count hrest h2
    | zero =>
      by_cases hst : listStarts needle (c :: rest) = true
      · have hP : listStarts needle (haystack.drop pos) = true := by rw [← h1]; exact hst
        by_cases hcap : count + 1 > 20000
        · refine ⟨by simp [scanLine, hst, hcap, ← h2], ?_⟩
          intro m hm
          simp only [scanLine, hst, if_true, hcap] at hm
          rcases List.mem_cons.mp hm with h | h
          · subst h
            exact Or.inr ⟨rfl, rfl, rfl, hP⟩
          · exact Or.inl h
        · have := ih (max qlen 1 - 1) (pos + 1)
            (⟨li, pos, pos + qlen, pv⟩ :: accRev) (count + 1) hrest (by simp [h2])
          refine ⟨?_, ?_⟩
          · simpa [scanLine, hst, hcap] using this.1
          · intro m hm
            rw [scanLine.eq_def] at hm
            simp only [hst, if_true] at hm
            rw [if_neg hcap] at hm
            rcases this.2 m hm with h | h
            · rcases List.mem_cons.mp h with h' | h'
              · subst h'
                exact Or.inr ⟨rfl, rfl, rfl, hP⟩
              · exact Or.inl h'
            · exact Or.inr h
      · have := ih 0 (pos + 1) accRev count hrest h2
        refine ⟨by simpa [scanLine, hst] using this.1, ?_⟩
        intro m hm
        rw [scanLine.eq_def] at hm
        simp only [hst] at hm
        rw [if_neg (by simp [hst])] at hm
        exact this.2 m hm

/-- The cap invariant of the inner scan loop. -/
theorem scanLine_cap (needle : List Char) (qlen li : Nat) (pv : List Char) :
    ∀ (suffix : List Char) (skip pos : Nat) (accRev : List FindMatch) (count : Nat),
      count ≤ 20000 →
      ((scanLine needle qlen li pv skip suffix pos accRev count).2.2 = false →
        (scanLine needle qlen li pv skip suffix pos accRev count).2.1 ≤ 20000) ∧
      (scanLine needle qlen li pv skip suffix pos accRev count).2.1 ≤ 20001 := by
  intro suffix
  induction suffix with
  | nil =>
    intro skip pos accRev count h
    exact ⟨fun _ => by simpa [scanLine] using h, by simp [scanLine]; omega⟩
  | cons c rest ih =>
    intro skip pos accRev count h
    cases skip with
    | succ skip' => simpa [scanLine] using ih skip' (pos + 1) accRev count h
    | zero =>
      by_cases hst : listStarts needle (c :: rest) = true
      · by_cases hcap : count + 1 > 20000
        · refine ⟨?_, ?_⟩ <;> simp [scanLine, hst, hcap] <;> omega
        · have := ih (max qlen 1 - 1) (pos + 1)
            (⟨li, pos, pos + qlen, pv⟩ :: accRev) (count + 1) (by omega)
          refine ⟨?_, ?_⟩
          · intro hab
            rw [scanLine.eq_def] at hab ⊢
            simp only [hst, if_true] at hab ⊢
            rw [if_neg hcap] at hab ⊢
            exact this.1 hab
          · rw [scanLine.eq_def]
            simp only [hst, if_true]
            rw [if_neg hcap]
            exact this.2
      · have := ih 0 (pos + 1) accRev count h
        constructor
        · intro hab
          rw [scanLine.eq_def] at hab ⊢
          simp only [hst] at hab ⊢
          rw [if_neg (by simp [hst])] at hab ⊢
          exact this.1 hab
        · rw [scanLine.eq_def]
          simp only [hst]
          rw [if_neg (by simp [hst])]
          exact this.2

/-- Every match produced by the outer loop is owned by one of the scanned
lines, carries that line's preview, and marks an occurrence of the needle in
that line's normalized text. -/
theorem findMatchesGo_spec (needle : List Char) (qlen : Nat) (cs : Bool) :
    ∀ (lines : List (List Char)) (li : Nat) (accRev : List FindMatch) (count : Nat),
      count = accRev.length →
      ∀ m ∈ findMatchesGo needle qlen cs lines li accRev count,
        m ∈ accRev ∨
          ∃ j, j < lines.length ∧ m.lineIndex = li + j ∧
            m.preview = previewOf (lines.getD j []) ∧
            m.endIdx = m.start + qlen ∧
            listStarts needle ((normalizeForSearch (lines.getD j []) cs).drop m.start)
              = true := by
  intro lines
  induction lines with
  | nil =>
    intro li accRev count _ m hm
    exact Or.inl (by simpa [findMatchesGo] using hm)
  | cons line rest ih =>
    intro li accRev count hcnt m hm
    rcases hscan : scanLine needle qlen li (previewOf line) 0
        (normalizeForSearch line cs) 0 accRev count with ⟨acc2, rest2⟩
    rcases rest2 with ⟨count2, ab⟩
    have hspec := scanLine_spec needle qlen li (previewOf line)
      (normalizeForSearch line cs) (normalizeForSearch line cs) 0 0 accRev count
      (List.drop_zero _).symm hcnt
    rw [hscan] at hspec
    have hacc2 : ∀ m' ∈ acc2, m' ∈ accRev ∨
        (m'.lineIndex = li ∧ m'.preview = previewOf line ∧
          m'.endIdx = m'.start + qlen ∧
          listStarts needle ((normalizeForSearch line cs).drop m'.start) = true) :=
      hspec.2
    simp only [findMatchesGo, hscan] at hm
    by_cases hab : ab = true
    · rw [if_pos hab] at hm
      rcases hacc2 m (List.mem_reverse.mp hm) with h | h
      · exact Or.inl h
      · exact Or.inr ⟨0, by simp, by simpa using h.1, by simpa using h.2.1,
          h.2.2.1, by simpa using h.2.2.2⟩
    · rw [if_neg hab] at hm
      rcases ih (li + 1) acc2 count2 hspec.1 m hm with h | h
      · rcases hacc2 m h with h' | h'
        · exact Or.inl h'
        · exact Or.inr ⟨0, by simp, by simpa using h'.1, by simpa using h'.2.1,
            h'.2.2.1, by simpa using h'.2.2.2⟩
      · rcases h with ⟨j, hj, h1, h2, h3, h4⟩
        exact Or.inr ⟨j + 1, by simpa using hj, by omega, by simpa using h2,
          h3, by simpa using h4⟩

/-! ### Character and trim lemmas used by the match-shape claims -/

theorem char_toNat_ofNat_valid (n : Nat) (h : n < 55296) : (Char.ofNat n).toNat = n := by
  have hv : n.isValidChar := Or.inl h
  simp [Char.ofNat, hv, Char.toNat, Char.ofNatAux, UInt32.toNat]

/-- A whitespace character is unchanged by `Char.toLower`. -/
theorem toLower_of_space (c : Char) (h : jsIsSpace c = true) : Char.toLower c = c := by
  simp only [jsIsSpace, Bool.or_eq_true, decide_eq_true_eq] at h
  rcases h with ((((h | h) | h) | h) | h) | h <;> subst h <;> decide

/-- Every whitespace character has a code point at most 32. -/
theorem space_toNat_le (s : Char) (hs : jsIsSpace s = true) : s.toNat ≤ 32 := by
  simp only [jsIsSpace, Bool.or_eq_true, decide_eq_true_eq] at hs
  rcases hs with ((((h | h) | h) | h) | h) | h <;> subst h <;> decide

/-- `Char.toLower` maps no non-whitespace character to a whitespace one. -/
theorem space_of_toLower_space (c : Char) (h : jsIsSpace c.toLower = true) :
    jsIsSpace c = true := by
  by_cases hu : c.toNat ≥ 65 ∧ c.toNat ≤ 90
  · exfalso
    have hlow : c.toLower = Char.ofNat (c.toNat + 32) := by
      simp [Char.toLower, hu]
    have htn : (Char.ofNat (c.toNat + 32)).toNat = c.toNat + 32 :=
      char_toNat_ofNat_valid _ (by omega)
    have hle := space_toNat_le c.toLower h
    rw [hlow, htn] at hle
    omega
  · have : c.toLower = c := by simp [Char.toLower, hu]
    rwa [this] at h

theorem dropWhile_head_false {p : Char → Bool} :
    ∀ (l : List Char) (c : Char) (t : List Char), l.dropWhile p = c :: t → p c = false := by
  intro l
  induction l with
  | nil => intro c t h; cases h
  | cons a l' ih =>
    intro c t h
    rw [List.dropWhile_cons] at h
    by_cases ha : p a
    · rw [if_pos ha] at h; exact ih c t h
    · rw [if_neg ha] at h
      injection h with h1 _
      subst h1
      exact Bool.of_not_eq_true ha

/-- A nonempty trimmed string starts with a non-whitespace character. -/
theorem jsTrim_head (s : List Char) (h : jsTrim s ≠ []) :
    ∃ c t, jsTrim s = c :: t ∧ jsIsSpace c = false := by
  set d := s.dropWhile jsIsSpace with hd
  have hpre : ∃ z, jsTrim s ++ z = d := by
    refine ⟨(d.reverse.takeWhile jsIsSpace).reverse, ?_⟩
    have : d.reverse.takeWhile jsIsSpace ++ d.reverse.dropWhile jsIsSpace = d.reverse :=
      List.takeWhile_append_dropWhile _ _
    have h2 := congrArg List.reverse this
    rw [List.reverse_append, List.reverse_reverse] at h2
    exact h2
  rcases hpre with ⟨z, hz⟩
  rcases htrim : jsTrim s with _ | ⟨c, t⟩
  · exact absurd htrim h
  · refine ⟨c, t, rfl, ?_⟩
    rw [htrim] at hz
    exact dropWhile_head_false s c (t ++ z) (by rw [← hd, ← hz]; rfl)

/-- A string containing a non-whitespace character trims to a nonempty
string. -/
theorem jsTrim_ne_nil_of_mem (l : List Char) (c : Char) (hc : c ∈ l)
    (hsp : jsIsSpace c = false) : jsTrim l ≠ [] := by
  intro hnil
  unfold jsTrim at hnil
  rw [List.reverse_eq_nil_iff] at hnil
  have hall : ∀ x ∈ (l.dropWhile jsIsSpace).reverse, jsIsSpace x = true :=
    List.dropWhile_eq_nil_iff.mp hnil
  have hall2 : ∀ x ∈ l.dropWhile jsIsSpace, jsIsSpace x = true := by
    intro x hx
    exact hall x (List.mem_reverse.mpr hx)
  have : ∀ x ∈ l, jsIsSpace x = true := by
    intro x hx
    have := List.takeWhile_append_dropWhile jsIsSpace l
    rw [← this] at hx
    rcases List.mem_append.mp hx with h | h
    · exact List.mem_takeWhile_imp h
    · exact hall2 x h
  rw [this c hc] at hsp
  cases hsp

/-- The cap bound of the outer loop. -/
theorem findMatchesGo_cap (needle : List Char) (qlen : Nat) (cs : Bool) :
    ∀ (lines : List (List Char)) (li : Nat) (accRev : List FindMatch) (count : Nat),
      count = accRev.length → count ≤ 20000 →
      (findMatchesGo needle qlen cs lines li accRev count).length ≤ 20001 := by
  intro lines
  induction lines with
  | nil =>
    intro li accRev count h1 h2
    simp [findMatchesGo]
    omega
  | cons line rest ih =>
    intro li accRev count h1 h2
    rcases hscan : scanLine needle qlen li (previewOf line) 0
        (normalizeForSearch line cs) 0 accRev count with ⟨acc2, rest2⟩
    rcases rest2 with ⟨count2, ab⟩
    have hspec := scanLine_spec needle qlen li (previewOf line)
      (normalizeForSearch line cs) (normalizeForSearch line cs) 0 0 accRev count
      (List.drop_zero _).symm h1
    have hcap := scanLine_cap needle qlen li (previewOf line)
      (normalizeForSearch line cs) 0 0 accRev count h2
    rw [hscan] at hspec hcap
    dsimp only at hspec hcap
    simp only [findMatchesGo, hscan]
    by_cases hab : ab = true
    · rw [if_pos hab]
      simp only [List.length_reverse]
      omega
    · rw [if_neg hab]
      exact ih (li + 1) acc2 count2 hspec.1
        (hcap.1 (by simpa using hab))

/-- C2 (amended): every match of `findMatches` lies inside its owning line,
`start < end ≤ len(line)`, and the designated substring equals the **trimmed**
query under the active case policy. -/
theorem c2_amended (lines : List (List Char)) (query : List Char) (caseSensitive : Bool) :
    ∀ m ∈ findMatches lines query caseSensitive,
      m.lineIndex < lines.length ∧
      m.start < m.endIdx ∧
      m.endIdx ≤ (lines.getD m.lineIndex []).length ∧
      normalizeForSearch (((lines.getD m.lineIndex []).drop m.start).take
          (m.endIdx - m.start)) caseSensitive
        = normalizeForSearch (jsTrim query) caseSensitive := by
  intro m hm
  unfold findMatches at hm
  split at hm
  · cases hm
  · rename_i hq
    rcases findMatchesGo_spec _ _ _ lines 0 [] 0 rfl m hm with h | h
    · cases h
    rcases h with ⟨j, hj, hli, _, hend, hstart⟩
    have hlij : m.lineIndex = j := by omega
    have hline : lines.getD m.lineIndex [] = lines.getD j [] := by rw [hlij]
    have hql : 1 ≤ (jsTrim query).length := List.length_pos.mpr hq
    rcases (listStarts_iff _ _).mp hstart with ⟨t, ht⟩
    have hnlen : (normalizeForSearch (jsTrim query) caseSensitive).length
        = (jsTrim query).length := normalizeForSearch_length _ _
    have hHlen : (normalizeForSearch (lines.getD j []) caseSensitive).length
        = (lines.getD j []).length := normalizeForSearch_length _ _
    have hlen := congrArg List.length ht
    rw [List.length_append, List.length_drop] at hlen
    have hbound : m.start + (jsTrim query).length ≤ (lines.getD j []).length := by
      omega
    refine ⟨by rw [hlij]; exact hj, by rw [hend]; omega, ?_, ?_⟩
    · rw [hline, hend]
      exact hbound
    · have hsub : ((normalizeForSearch (lines.getD j []) caseSensitive).drop m.start).take
          (normalizeForSearch (jsTrim query) caseSensitive).length
          = normalizeForSearch (jsTrim query) caseSensitive := by
        rw [← ht]
        exact List.take_left _ _
      have hcomm : normalizeForSearch (((lines.getD j []).drop m.start).take
            (m.endIdx - m.start)) caseSensitive
          = ((normalizeForSearch (lines.getD j []) caseSensitive).drop m.start).take
            (m.endIdx - m.start) := by
        cases caseSensitive with
        | true => rfl
        | false => simp [normalizeForSearch, jsToLower, List.map_take, List.map_drop]
      have hdiff : m.endIdx - m.start = (normalizeForSearch (jsTrim query)
          caseSensitive).length := by
        rw [hend, hnlen]
        omega
      rw [hline, hcomm, hdiff, hsub]

/-- Witness for the amended C2 at a concrete search. -/
theorem c2_amended_witness :
    normalizeForSearch ((("ls - list").toList.drop 0).take 2) false
      = normalizeForSearch (jsTrim ("ls").toList) false :=
  (c2_amended [("ls - list").toList] ("ls").toList false
    ⟨0, 0, 2, ("ls - list").toList⟩ (by decide)).2.2.2

/-- C2 as frozen fails for a query with surrounding whitespace: the query is
trimmed before searching, so the matched substring equals the trimmed query,
not the query itself. Here the query `" ls "` matches the two-character line
`"ls"` at offsets `[0, 2)`, whose substring differs from the query even after
lower-casing both. -/
theorem c2_counterexample :
    findMatches [("ls").toList] (" ls ").toList false
        = [⟨0, 0, 2, ("ls").toList⟩] ∧
      ¬ normalizeForSearch ((("ls").toList.drop 0).take 2) false
          = normalizeForSearch ((" ls ").toList) false := by
  decide

/-- C4 (amended): `findMatches` returns at most 20,001 matches — the cap
check `matches.length > 20_000` runs after the push, so one match beyond
20,000 is kept before the scan stops. -/
theorem c4_amended (lines : List (List Char)) (query : List Char) (cs : Bool) :
    (findMatches lines query cs).length ≤ 20001 := by
  unfold findMatches
  split
  · simp
  · exact findMatchesGo_cap _ _ _ lines 0 [] 0 rfl (by omega)

/-- Closed form of the inner scan over an all-`'a'` line with needle `"a"`:
one match per position until the cap aborts at 20,001. -/
theorem scanLine_replicate (pv : List Char) :
    ∀ (n pos : Nat) (accRev : List FindMatch) (count : Nat), count ≤ 20000 →
      (scanLine [('a')] 1 0 pv 0 (List.replicate n ('a')) pos accRev count).2.1
          = min (count + n) 20001 := by
  intro n
  induction n with
  | zero =>
    intro pos accRev count h
    simp [scanLine]
    omega
  | succ n ih =>
    intro pos accRev count h
    rw [List.replicate_succ]
    have hst : listStarts [('a')] (('a') :: List.replicate n ('a')) = true := by
      simp [listStarts]
    by_cases hcap : count + 1 > 20000
    · rw [scanLine.eq_def]
      simp only [hst, if_true]
      rw [if_pos hcap]
      simp
      omega
    · rw [scanLine.eq_def]
      simp only [hst, if_true]
      rw [if_neg hcap]
      have := ih (pos + 1) (⟨0, pos, pos + 1, pv⟩ :: accRev) (count + 1) (by omega)
      simpa using this.trans (by omega)

/-- Over a single line the outer loop returns the scan's accumulator,
whether or not the cap aborted. -/
theorem findMatchesGo_single (needle : List Char) (qlen : Nat) (cs : Bool)
    (line : List Char) (li : Nat) (accRev : List FindMatch) (count : Nat) :
    findMatchesGo needle qlen cs [line] li accRev count
      = (scanLine needle qlen li (previewOf line) 0
          (normalizeForSearch line cs) 0 accRev count).1.reverse := by
  rcases hscan : scanLine needle qlen li (previewOf line) 0
      (normalizeForSearch line cs) 0 accRev count with ⟨acc2, rest2⟩
  rcases rest2 with ⟨count2, ab⟩
  simp only [findMatchesGo, hscan]
  by_cases hab : ab = true
  · rw [if_pos hab]
  · rw [if_neg hab]

/-- C4 fails as stated: on a 20,001-character line of `'a'` with query
`"a"`, `findMatches` returns 20,001 matches — one more than the claimed
20,000 cap, because the cap test `matches.length > 20_000` runs only after
the 20,001st push. -/
theorem c4_counterexample :
    20000 < (findMatches [List.replicate 20001 ('a')] [('a')] false).length := by
  have htrim : jsTrim [('a')] = [('a')] := by decide
  have hneedle : normalizeForSearch [('a')] false = [('a')] := by decide
  have hline : normalizeForSearch (List.replicate 20001 ('a')) false
      = List.replicate 20001 ('a') := by
    have h : Char.toLower ('a') = ('a') := by decide
    simp only [normalizeForSearch, Bool.false_eq_true, if_false, jsToLower,
      List.map_replicate, h]
  unfold findMatches
  split
  · rename_i hempty
    rw [htrim] at hempty
    cases hempty
  · rw [htrim, hneedle]
    rw [show ([('a')] : List Char).length = 1 from rfl]
    rw [findMatchesGo_single, hline, List.length_reverse]
    have hspec := scanLine_spec [('a')] 1 0 (previewOf (List.replicate 20001 ('a')))
      (List.replicate 20001 ('a')) (List.replicate 20001 ('a')) 0 0 [] 0
      (List.drop_zero _).symm rfl
    have hrep := scanLine_replicate (previewOf (List.replicate 20001 ('a')))
      20001 0 [] 0 (by omega)
    have h1 := hspec.1
    omega

/-- C10: every match's preview is the trimmed text of its owning line and is
non-empty — the query is trimmed before searching, so a match only occurs on
a line with a non-whitespace character, and the `"(blank line)"` placeholder
branch of the preview computation is never taken. -/
theorem c10_preview (lines : List (List Char)) (query : List Char) (caseSensitive : Bool) :
    ∀ m ∈ findMatches lines query caseSensitive,
      m.lineIndex < lines.length ∧
      m.preview = jsTrim (lines.getD m.lineIndex []) ∧
      m.preview ≠ [] := by
  intro m hm
  unfold findMatches at hm
  split at hm
  · cases hm
  · rename_i hq
    rcases findMatchesGo_spec _ _ _ lines 0 [] 0 rfl m hm with h | h
    · cases h
    rcases h with ⟨j, hj, hli, hpv, _, hstart⟩
    have hlij : m.lineIndex = j := by omega
    rcases jsTrim_head query hq with ⟨c0, t0, htrim, hc0⟩
    rcases (listStarts_iff _ _).mp hstart with ⟨t, ht⟩
    have htrim_ne : jsTrim (lines.getD j []) ≠ [] := by
      cases caseSensitive with
      | true =>
        have h2 : c0 ∈ normalizeForSearch (jsTrim query) true ++ t := by
          simp [normalizeForSearch, htrim]
        have h3 : c0 ∈ (normalizeForSearch (lines.getD j []) true).drop m.start := by
          rw [← ht]; exact h2
        have hmem : c0 ∈ lines.getD j [] := by
          simpa [normalizeForSearch] using List.drop_subset _ _ h3
        exact jsTrim_ne_nil_of_mem _ c0 hmem hc0
      | false =>
        have h2 : Char.toLower c0 ∈ normalizeForSearch (jsTrim query) false ++ t := by
          simp only [normalizeForSearch, Bool.false_eq_true, if_false, htrim, jsToLower,
            List.map_cons]
          exact List.mem_append.mpr (Or.inl (List.mem_cons_self _ _))
        have h3 : Char.toLower c0 ∈ (normalizeForSearch (lines.getD j []) false).drop
            m.start := by
          rw [← ht]; exact h2
        have hmem : Char.toLower c0 ∈ jsToLower (lines.getD j []) := by
          simpa [normalizeForSearch] using List.drop_subset _ _ h3
        rcases List.mem_map.mp hmem with ⟨d, hd, hdl⟩
        have hdns : jsIsSpace d = false := by
          by_contra hcon
          have hds : jsIsSpace d = true := by
            revert hcon
            cases jsIsSpace d <;> simp
          have : d = Char.toLower c0 := by rw [← hdl, toLower_of_space d hds]
          have hsp : jsIsSpace (Char.toLower c0) = true := by rw [← this]; exact hds
          have := space_of_toLower_space c0 hsp
          rw [this] at hc0
          cases hc0
        exact jsTrim_ne_nil_of_mem _ d hd hdns
    have hprev : previewOf (lines.getD j []) = jsTrim (lines.getD j []) := by
      unfold previewOf
      rw [if_neg htrim_ne]
    refine ⟨by rw [hlij]; exact hj, ?_, ?_⟩
    · rw [hlij, hpv, hprev]
    · rw [hpv, hprev]
      exact htrim_ne

/-- Witness for C10 at a concrete search. -/
theorem c10_preview_witness :
    (⟨0, 0, 2, ("ls - list").toList⟩ : FindMatch).lineIndex < 1 ∧
    (⟨0, 0, 2, ("ls - list").toList⟩ : FindMatch).preview
      = jsTrim ([("ls - list").toList].getD 0 []) ∧
    (⟨0, 0, 2, ("ls - list").toList⟩ : FindMatch).preview ≠ [] :=
  c10_preview [("ls - list").toList] ("ls").toList false
    ⟨0, 0, 2, ("ls - list").toList⟩ (by decide)

/-! ### Lemmas about `buildFilterLines` -/

theorem mapGet_nil (k : Nat) : mapGet [] k = none := rfl

theorem mapGet_cons_self (k v : Nat) (t : List (Nat × Nat)) :
    mapGet ((k, v) :: t) k = some v := by
  unfold mapGet
  rw [List.find?_cons_of_pos _ (by simp)]
  rfl

theorem mapGet_cons_ne (k0 v0 k : Nat) (t : List (Nat × Nat)) (h : k0 ≠ k) :
    mapGet ((k0, v0) :: t) k = mapGet t k := by
  unfold mapGet
  rw [List.find?_cons_of_neg _ (by simp [h])]

theorem mapGet_mapSet_self : ∀ (l : List (Nat × Nat)) (k v : Nat),
    mapGet (mapSet l k v) k = some v
  | [], k, v => by simp [mapSet, mapGet_cons_self]
  | (k', v') :: t, k, v => by
    by_cases h : k' = k
    · simp [mapSet, h, mapGet_cons_self]
    · rw [show mapSet ((k', v') :: t) k v = (k', v') :: mapSet t k v from by
        simp [mapSet, h]]
      rw [mapGet_cons_ne _ _ _ _ h]
      exact mapGet_mapSet_self t k v

theorem mapGet_mapSet_other : ∀ (l : List (Nat × Nat)) (k v k' : Nat), k' ≠ k →
    mapGet (mapSet l k v) k' = mapGet l k'
  | [], k, v, k', h => by
    show mapGet [(k, v)] k' = mapGet [] k'
    rw [mapGet_cons_ne _ _ _ _ (fun e => h e.symm)]
  | (k0, v0) :: t, k, v, k', h => by
    by_cases h0 : k0 = k
    · subst h0
      rw [show mapSet ((k0, v0) :: t) k0 v = (k0, v) :: t from by simp [mapSet]]
      rw [mapGet_cons_ne _ _ _ _ (fun e => h e.symm),
        mapGet_cons_ne _ _ _ _ (fun e => h e.symm)]
    · rw [show mapSet ((k0, v0) :: t) k v = (k0, v0) :: mapSet t k v from by
        simp [mapSet, h0]]
      by_cases h1 : k0 = k'
      · subst h1
        rw [mapGet_cons_self, mapGet_cons_self]
      · rw [mapGet_cons_ne _ _ _ _ h1, mapGet_cons_ne _ _ _ _ h1]
        exact mapGet_mapSet_other t k v k' h

theorem mapGet_none_iff : ∀ (l : List (Nat × Nat)) (k : Nat),
    mapGet l k = none ↔ k ∉ l.map Prod.fst
  | [], k => by simp [mapGet]
  | (k0, v0) :: t, k => by
    by_cases h : k0 = k
    · subst h
      rw [mapGet_cons_self]
      simp
    · rw [mapGet_cons_ne _ _ _ _ h, mapGet_none_iff t k]
      simp only [List.map_cons, List.mem_cons]
      constructor
      · intro hh hc
        rcases hc with hc | hc
        · exact h hc.symm
        · exact hh hc
      · intro hh hc
        exact hh (Or.inr hc)

theorem mapGet_of_mem_nodup : ∀ (l : List (Nat × Nat)) (k v : Nat),
    (l.map Prod.fst).Nodup → (k, v) ∈ l → mapGet l k = some v
  | [], k, v, _, hm => by cases hm
  | (k0, v0) :: t, k, v, hnd, hm => by
    rcases List.mem_cons.mp hm with h | h
    · injection h with h1 h2
      subst h1; subst h2
      exact mapGet_cons_self _ _ _
    · have hnd' : k0 ∉ t.map Prod.fst ∧ (t.map Prod.fst).Nodup :=
        List.nodup_cons.mp (by rw [List.map_cons] at hnd; exact hnd)
      have hk : k0 ≠ k := by
        intro he
        subst he
        have : k0 ∈ t.map Prod.fst := List.mem_map.mpr ⟨(k0, v), h, rfl⟩
        exact hnd'.1 this
      rw [mapGet_cons_ne _ _ _ _ hk]
      exact mapGet_of_mem_nodup t k v hnd'.2 h

theorem keys_mapSet_subset : ∀ (l : List (Nat × Nat)) (k v : Nat),
    (mapSet l k v).map Prod.fst ⊆ k :: l.map Prod.fst
  | [], k, v => by simp [mapSet]
  | (k0, v0) :: t, k, v => by
    by_cases h : k0 = k
    · subst h
      simp only [mapSet, if_pos rfl, List.map_cons]
      intro x hx
      simpa using hx
    · simp only [mapSet, if_neg h, List.map_cons]
      intro x hx
      rcases List.mem_cons.mp hx with h1 | h1
      · subst h1
        simp
      · have := keys_mapSet_subset t k v h1
        rcases List.mem_cons.mp this with h2 | h2
        · subst h2
          simp
        · simp [h2]

theorem keys_mapSet_nodup : ∀ (l : List (Nat × Nat)) (k v : Nat),
    (l.map Prod.fst).Nodup → ((mapSet l k v).map Prod.fst).Nodup
  | [], k, v, _ => by simp [mapSet]
  | (k0, v0) :: t, k, v, hnd => by
    rcases List.nodup_cons.mp (by rw [List.map_cons] at hnd; exact hnd) with ⟨hk0, ht⟩
    by_cases h : k0 = k
    · subst h
      simp only [mapSet, if_pos rfl, List.map_cons]
      exact List.nodup_cons.mpr ⟨hk0, ht⟩
    · simp only [mapSet, if_neg h, List.map_cons]
      refine List.nodup_cons.mpr ⟨?_, keys_mapSet_nodup t k v ht⟩
      intro hmem
      rcases List.mem_cons.mp (keys_mapSet_subset t k v hmem) with h1 | h1
      · exact h h1
      · exact hk0 h1

/-- The number of matches on line `k`. -/
def cntLine (matchList : List FindMatch) (k : Nat) : Nat :=
  matchList.countP (fun m => m.lineIndex == k)

theorem countMatches_step (acc : List (Nat × Nat)) (m : FindMatch) (k : Nat) :
    (mapGet (mapSet acc m.lineIndex ((mapGet acc m.lineIndex).getD 0 + 1)) k).getD 0
        = (mapGet acc k).getD 0 + (if m.lineIndex = k then 1 else 0) ∧
      (mapGet (mapSet acc m.lineIndex ((mapGet acc m.lineIndex).getD 0 + 1)) k = none ↔
        mapGet acc k = none ∧ m.lineIndex ≠ k) := by
  by_cases h : m.lineIndex = k
  · subst h
    rw [mapGet_mapSet_self]
    simp
  · rw [mapGet_mapSet_other _ _ _ _ (fun e => h e.symm)]
    simp [h]

theorem countMatches_fold (ms : List FindMatch) :
    ∀ (acc : List (Nat × Nat)) (k : Nat),
      (mapGet (ms.foldl
            (fun acc m => mapSet acc m.lineIndex ((mapGet acc m.lineIndex).getD 0 + 1))
            acc) k).getD 0
          = (mapGet acc k).getD 0 + cntLine ms k ∧
        (mapGet (ms.foldl
            (fun acc m => mapSet acc m.lineIndex ((mapGet acc m.lineIndex).getD 0 + 1))
            acc) k = none ↔ mapGet acc k = none ∧ cntLine ms k = 0) := by
  induction ms with
  | nil =>
    intro acc k
    simp [cntLine]
  | cons m ms ih =>
    intro acc k
    rw [List.foldl_cons]
    have hstep := countMatches_step acc m k
    have hih := ih (mapSet acc m.lineIndex ((mapGet acc m.lineIndex).getD 0 + 1)) k
    have hcnt : cntLine (m :: ms) k = cntLine ms k + (if m.lineIndex = k then 1 else 0) := by
      simp only [cntLine, List.countP_cons]
      by_cases h : m.lineIndex = k <;> simp [h]
    constructor
    · rw [hih.1, hstep.1, hcnt]
      omega
    · rw [hih.2, hstep.2, hcnt]
      constructor
      · rintro ⟨⟨h1, h2⟩, h3⟩
        refine ⟨h1, ?_⟩
        by_cases h : m.lineIndex = k
        · exact absurd h h2
        · simpa [h] using h3
      · rintro ⟨h1, h2⟩
        by_cases h : m.lineIndex = k
        · rw [if_pos h] at h2
          omega
        · rw [if_neg h] at h2
          exact ⟨⟨h1, h⟩, by omega⟩

theorem countMatches_get (ms : List FindMatch) (k : Nat) :
    (mapGet (countMatches ms) k).getD 0 = cntLine ms k ∧
    (mapGet (countMatches ms) k = none ↔ cntLine ms k = 0) := by
  have := countMatches_fold ms [] k
  unfold countMatches
  refine ⟨by simpa [mapGet] using this.1, ?_⟩
  rw [this.2]
  simp [mapGet]

theorem countMatches_keys_nodup_aux (ms : List FindMatch) :
    ∀ (acc : List (Nat × Nat)), ((acc.map Prod.fst).Nodup) →
      (((ms.foldl
          (fun acc m => mapSet acc m.lineIndex ((mapGet acc m.lineIndex).getD 0 + 1))
          acc)).map Prod.fst).Nodup := by
  induction ms with
  | nil => intro acc h; simpa using h
  | cons m ms ih =>
    intro acc h
    rw [List.foldl_cons]
    exact ih _ (keys_mapSet_nodup _ _ _ h)

theorem countMatches_keys_nodup (ms : List FindMatch) :
    ((countMatches ms).map Prod.fst).Nodup :=
  countMatches_keys_nodup_aux ms [] (by simp)

theorem sumVals_bump : ∀ (l : List (Nat × Nat)) (k : Nat),
    ((mapSet l k ((mapGet l k).getD 0 + 1)).map Prod.snd).sum
      = (l.map Prod.snd).sum + 1
  | [], k => by simp [mapSet, mapGet]
  | (k0, v0) :: t, k => by
    by_cases h : k0 = k
    · subst h
      rw [mapGet_cons_self]
      simp only [Option.getD_some]
      rw [show mapSet ((k0, v0) :: t) k0 (v0 + 1) = (k0, v0 + 1) :: t from by
        simp [mapSet]]
      simp only [List.map_cons, List.sum_cons]
      omega
    · rw [mapGet_cons_ne _ _ _ _ h]
      rw [show mapSet ((k0, v0) :: t) k ((mapGet t k).getD 0 + 1)
          = (k0, v0) :: mapSet t k ((mapGet t k).getD 0 + 1) from by simp [mapSet, h]]
      simp only [List.map_cons, List.sum_cons]
      rw [sumVals_bump t k]
      omega

theorem countMatches_sum_aux (ms : List FindMatch) :
    ∀ (acc : List (Nat × Nat)),
      (((ms.foldl
          (fun acc m => mapSet acc m.lineIndex ((mapGet acc m.lineIndex).getD 0 + 1))
          acc)).map Prod.snd).sum = (acc.map Prod.snd).sum + ms.length := by
  induction ms with
  | nil => intro acc; simp
  | cons m ms ih =>
    intro acc
    rw [List.foldl_cons, ih, sumVals_bump]
    simp
    omega

theorem countMatches_sum (ms : List FindMatch) :
    (((countMatches ms)).map Prod.snd).sum = ms.length := by
  have := countMatches_sum_aux ms []
  simpa [countMatches] using this

/-! ### Sorting lemmas -/

theorem insertByKey_perm (x : Nat × Nat) : ∀ (l : List (Nat × Nat)),
    (insertByKey x l).Perm (x :: l)
  | [] => by simp [insertByKey]
  | y :: ys => by
    by_cases h : x.1 ≤ y.1
    · simp [insertByKey, h]
    · rw [show insertByKey x (y :: ys) = y :: insertByKey x ys from by
        simp [insertByKey, h]]
      exact List.Perm.trans (List.Perm.cons y (insertByKey_perm x ys))
        (List.Perm.swap x y ys)

theorem sortByKey_perm : ∀ (l : List (Nat × Nat)), (sortByKey l).Perm l
  | [] => by simp [sortByKey]
  | x :: xs => by
    show (insertByKey x (sortByKey xs)).Perm (x :: xs)
    exact List.Perm.trans (insertByKey_perm x (sortByKey xs))
      (List.Perm.cons x (sortByKey_perm xs))

theorem insertByKey_sorted (x : Nat × Nat) : ∀ (l : List (Nat × Nat)),
    l.Pairwise (fun a b => a.1 ≤ b.1) →
    (insertByKey x l).Pairwise (fun a b => a.1 ≤ b.1)
  | [], _ => by simp [insertByKey]
  | y :: ys, h => by
    rcases List.pairwise_cons.mp h with ⟨hy, hys⟩
    by_cases hle : x.1 ≤ y.1
    · rw [show insertByKey x (y :: ys) = x :: y :: ys from by simp [insertByKey, hle]]
      refine List.pairwise_cons.mpr ⟨?_, h⟩
      intro z hz
      rcases List.mem_cons.mp hz with hz | hz
      · subst hz; exact hle
      · exact le_trans hle (hy z hz)
    · rw [show insertByKey x (y :: ys) = y :: insertByKey x ys from by
        simp [insertByKey, hle]]
      refine List.pairwise_cons.mpr ⟨?_, insertByKey_sorted x ys hys⟩
      intro z hz
      have hz' := (insertByKey_perm x ys).mem_iff.mp hz
      rcases List.mem_cons.mp hz' with hz' | hz'
      · subst hz'; omega
      · exact hy z hz'

theorem sortByKey_sorted : ∀ (l : List (Nat × Nat)),
    (sortByKey l).Pairwise (fun a b => a.1 ≤ b.1)
  | [] => by simp [sortByKey]
  | x :: xs => by
    show (insertByKey x (sortByKey xs)).Pairwise (fun a b => a.1 ≤ b.1)
    exact insertByKey_sorted x (sortByKey xs) (sortByKey_sorted xs)

/-- C3: `buildFilterLines` yields exactly one Filter Line per distinct
`lineIndex` occurring in the matches (membership both ways), strictly
ascending by `lineIndex` (hence no two entries share one), with each entry's
`matchCount` the number of matches on that line, and the counts summing to
the length of the match list. -/
theorem c3_filter_lines (lines : List (List Char)) (matchList : List FindMatch) :
    ((buildFilterLines lines matchList).map (fun f => f.lineIndex)).Pairwise (· < ·) ∧
    ((buildFilterLines lines matchList).map (fun f => f.lineIndex)).Nodup ∧
    (∀ i, i ∈ (buildFilterLines lines matchList).map (fun f => f.lineIndex) ↔
        i ∈ matchList.map (fun m => m.lineIndex)) ∧
    (∀ f ∈ buildFilterLines lines matchList, f.matchCount = cntLine matchList f.lineIndex) ∧
    ((buildFilterLines lines matchList).map (fun f => f.matchCount)).sum
      = matchList.length := by
  have hperm : (sortByKey (countMatches matchList)).Perm (countMatches matchList) :=
    sortByKey_perm _
  have hkeys : (buildFilterLines lines matchList).map (fun f => f.lineIndex)
      = (sortByKey (countMatches matchList)).map Prod.fst := by
    unfold buildFilterLines
    rw [List.map_map]
    rfl
  have hcounts : (buildFilterLines lines matchList).map (fun f => f.matchCount)
      = (sortByKey (countMatches matchList)).map Prod.snd := by
    unfold buildFilterLines
    rw [List.map_map]
    rfl
  have hnodup : ((sortByKey (countMatches matchList)).map Prod.fst).Nodup := by
    exact (hperm.map Prod.fst).nodup_iff.mpr (countMatches_keys_nodup matchList)
  have hsorted : ((sortByKey (countMatches matchList)).map Prod.fst).Pairwise (· ≤ ·) := by
    have := sortByKey_sorted (countMatches matchList)
    exact List.pairwise_map.mpr this
  have hlt : ((sortByKey (countMatches matchList)).map Prod.fst).Pairwise (· < ·) := by
    have hand := List.Pairwise.and hsorted (List.Pairwise.imp (fun h => h) hnodup)
    exact hand.imp (fun ⟨hle, hne⟩ => lt_of_le_of_ne hle hne)
  refine ⟨by rw [hkeys]; exact hlt, by rw [hkeys]; exact hnodup, ?_, ?_, ?_⟩
  · intro i
    rw [hkeys]
    rw [(hperm.map Prod.fst).mem_iff]
    constructor
    · intro hmem
      have := (mapGet_none_iff (countMatches matchList) i).not
      have hne : mapGet (countMatches matchList) i ≠ none := by
        intro hcon
        exact (mapGet_none_iff (countMatches matchList) i).mp hcon hmem
      have hcnt : cntLine matchList i ≠ 0 := by
        intro hcon
        exact hne ((countMatches_get matchList i).2.mpr hcon)
      have hpos : 0 < cntLine matchList i := Nat.pos_of_ne_zero hcnt
      rcases List.countP_pos_iff.mp hpos with ⟨m, hm, hmi⟩
      have hmi' : m.lineIndex = i := by simpa using hmi
      exact List.mem_map.mpr ⟨m, hm, hmi'⟩
    · intro hmem
      rcases List.mem_map.mp hmem with ⟨m, hm, hmi⟩
      have hcnt : 0 < cntLine matchList i := by
        apply List.countP_pos_iff.mpr
        exact ⟨m, hm, by simp [hmi]⟩
      by_contra hnot
      have := (mapGet_none_iff (countMatches matchList) i).mpr hnot
      have := (countMatches_get matchList i).2.mp this
      omega
  · intro f hf
    unfold buildFilterLines at hf
    rcases List.mem_map.mp hf with ⟨e, he, hfe⟩
    have he' : e ∈ countMatches matchList := hperm.mem_iff.mp he
    have hget : mapGet (countMatches matchList) e.1 = some e.2 :=
      mapGet_of_mem_nodup _ _ _ (countMatches_keys_nodup matchList) he'
    have := (countMatches_get matchList e.1).1
    rw [hget] at this
    simp only [Option.getD_some] at this
    rw [← hfe]
    simpa using this
  · rw [hcounts]
    rw [(hperm.map Prod.snd).sum_eq]
    exact countMatches_sum matchList

/-! ### The token classifier: `tokenizeLine` -/

/-- `kind` of a Token Segment as in `types.ts`. -/
inductive TokenKind where
  | plain
  | heading
  | option
  | path
  | env
  | literal
  | command
deriving DecidableEq

/-- A Token Segment as in `types.ts`. -/
structure TokenSegment where
  text : List Char
  kind : TokenKind
deriving DecidableEq

/-- The backtick character (code point 96). -/
def backtickChar : Char := Char.ofNat 96

/-- The regex word-character class `\w`: ASCII letters, digits, underscore. -/
def isWordChar (c : Char) : Bool := c.isAlphanum || c = '_'

/-- A word boundary `\b` holds before a word character when the previous
character is absent or not a word character. -/
def boundaryLeft (prev : Option Char) : Bool :=
  match prev with
  | none => true
  | some p => !(isWordChar p)

/-- The class `[\w-]`. -/
def isOptChar (x : Char) : Bool := isWordChar x || x = '-'

/-- The class `[A-Z0-9_]`. -/
def isEnvChar (x : Char) : Bool := x.isUpper || x.isDigit || x = '_'

/-- The class of path characters: word characters, dots, slashes, hyphens. -/
def isPathChar (x : Char) : Bool := isWordChar x || x = '.' || x = '/' || x = '-'

/-- Alternative 1 of `TOKEN_PATTERN`: `--?[a-zA-Z0-9][\w-]*`. -/
def tryOptionTok : List Char → Option (List Char)
  | '-' :: '-' :: c :: t =>
    if c.isAlphanum then some ('-' :: '-' :: c :: t.takeWhile isOptChar) else none
  | '-' :: c :: t =>
    if c.isAlphanum then some ('-' :: c :: t.takeWhile isOptChar) else none
  | _ => none

/-- Alternative 2 of `TOKEN_PATTERN`: `\b[A-Z][A-Z0-9_]{2,}\b`. The trailing
`\b` holds exactly when the greedy run is followed by a non-word character or
the end of the line (backtracking the `{2,}` cannot help, since any shorter
run is followed by a word character). -/
def tryEnvTok (prev : Option Char) : List Char → Option (List Char)
  | c :: t =>
    if boundaryLeft prev && c.isUpper then
      if 2 ≤ (t.takeWhile isEnvChar).length &&
          (match t.dropWhile isEnvChar with | [] => true | r :: _ => !(isWordChar r)) then
        some (c :: t.takeWhile isEnvChar)
      else none
    else none
  | [] => none

/-- Alternative 3 of `TOKEN_PATTERN`: a tilde or slash followed by one or
more word characters, dots, slashes or hyphens. -/
def tryPathTok : List Char → Option (List Char)
  | c :: t =>
    if c = '~' || c = '/' then
      if (t.takeWhile isPathChar).isEmpty then none
      else some (c :: t.takeWhile isPathChar)
    else none
  | [] => none

/-- Alternative 4 of `TOKEN_PATTERN`: a backtick-quoted literal with a
nonempty body. -/
def tryLiteralTok : List Char → Option (List Char)
  | c :: t =>
    if c = backtickChar then
      match t.dropWhile (fun x => x != backtickChar) with
      | r :: _ =>
        if (t.takeWhile (fun x => x != backtickChar)).isEmpty then none
        else some (c :: t.takeWhile (fun x => x != backtickChar) ++ [r])
      | [] => none
    else none
  | [] => none

/-- Alternative 5 of `TOKEN_PATTERN`: `\b[a-z]{2,}\(\d\)\b`. The trailing
`\b` sits after `)` (a non-word character), so it holds exactly when a word
character follows. -/
def tryCommandTok (prev : Option Char) (s : List Char) : Option (List Char) :=
  if boundaryLeft prev then
    match s.dropWhile (fun x => x.isLower) with
    | '(' :: d :: ')' :: r =>
      if 2 ≤ (s.takeWhile (fun x => x.isLower)).length && d.isDigit &&
          (match r with | rc :: _ => isWordChar rc | [] => false) then
        some (s.takeWhile (fun x => x.isLower) ++ ['(', d, ')'])
      else none
    | _ => none
  else none

/-- One attempt of `TOKEN_PATTERN` at the current position: the alternatives
in the pattern's order. -/
def tryAlts (prev : Option Char) (s : List Char) : Option (List Char) :=
  match tryOptionTok s with
  | some tok => some tok
  | none =>
    match tryEnvTok prev s with
    | some tok => some tok
    | none =>
      match tryPathTok s with
      | some tok => some tok
      | none =>
        match tryLiteralTok s with
        | some tok => some tok
        | none => tryCommandTok prev s

/-- `classifyToken` of `manParser.ts`. -/
def classifyToken (token : List Char) : TokenKind :=
  if listStarts ['-', '-'] token || listStarts ['-'] token then .option
  else if listStarts ['/'] token || listStarts ['~', '/'] token then .path
  else if (match token with
      | c :: rest => c.isUpper && 2 ≤ rest.length &&
          rest.all (fun x => x.isUpper || x.isDigit || x = '_')
      | [] => false) then .env
  else if token.head? = some backtickChar ∧ token.getLast? = some backtickChar then .literal
  else if (2 ≤ (token.takeWhile (fun x => x.isLower)).length &&
      (match token.dropWhile (fun x => x.isLower) with
        | ['(', d, ')'] => d.isDigit
        | _ => false)) then .command
  else .plain

/-- The scanning loop of `tokenizeLine` (`line.matchAll(TOKEN_PATTERN)` with
gap slices): `gapRev` accumulates plain text since the last match, `accRev`
the segments so far; `skip` counts the characters of the current token still
to pass over; `prev` is the previous character for the `\b` checks. -/
def tokenGo : Nat → Option Char → List Char → List TokenSegment → List Char →
    List TokenSegment
  | _, _, gapRev, accRev, [] =>
    (if gapRev.isEmpty then accRev
      else ⟨gapRev.reverse, .plain⟩ :: accRev).reverse
  | skip+1, _, gapRev, accRev, c :: rest => tokenGo skip (some c) gapRev accRev rest
  | 0, prev, gapRev, accRev, c :: rest =>
    match tryAlts prev (c :: rest) with
    | some tok =>
      tokenGo (tok.length - 1) (some c) []
        (⟨tok, classifyToken tok⟩ ::
          (if gapRev.isEmpty then accRev else ⟨gapRev.reverse, .plain⟩ :: accRev))
        rest
    | none => tokenGo 0 (some c) (c :: gapRev) accRev rest

/-- `tokenizeLine` of `manParser.ts`. -/
def tokenizeLine (line : List Char) : List TokenSegment :=
  if jsTrim line ≠ [] ∧ (jsTrim line).length ≤ 72 ∧ jsTrim line = jsToUpper (jsTrim line) then
    [⟨line, .heading⟩]
  else
    let segments := tokenGo 0 none [] [] line
    if segments.isEmpty then [⟨line, .plain⟩] else segments

/-! ### The content-preserving-partition proof for `tokenizeLine` -/

theorem takeWhile_dropWhile_eq {p : Char → Bool} (t : List Char) :
    t.takeWhile p ++ t.dropWhile p = t :=
  List.takeWhile_append_dropWhile p t

theorem tryOptionTok_prefix (s tok : List Char) (h : tryOptionTok s = some tok) :
    tok ≠ [] ∧ ∃ r, tok ++ r = s := by
  unfold tryOptionTok at h
  split at h
  · rename_i c t
    split at h
    · injection h with h
      subst h
      refine ⟨by simp, t.dropWhile isOptChar, ?_⟩
      simp [takeWhile_dropWhile_eq]
    · cases h
  · rename_i c t _
    split at h
    · injection h with h
      subst h
      refine ⟨by simp, t.dropWhile isOptChar, ?_⟩
      simp [takeWhile_dropWhile_eq]
    · cases h
  · cases h

theorem tryEnvTok_prefix (prev : Option Char) (s tok : List Char)
    (h : tryEnvTok prev s = some tok) : tok ≠ [] ∧ ∃ r, tok ++ r = s := by
  unfold tryEnvTok at h
  split at h
  · rename_i c t
    split at h
    · split at h
      · injection h with h
        subst h
        refine ⟨by simp, t.dropWhile isEnvChar, ?_⟩
        simp [takeWhile_dropWhile_eq]
      · cases h
    · cases h
  · cases h

theorem tryPathTok_prefix (s tok : List Char) (h : tryPathTok s = some tok) :
    tok ≠ [] ∧ ∃ r, tok ++ r = s := by
  unfold tryPathTok at h
  split at h
  · rename_i c t
    split at h
    · split at h
      · cases h
      · injection h with h
        subst h
        refine ⟨by simp, t.dropWhile isPathChar, ?_⟩
        simp [takeWhile_dropWhile_eq]
    · cases h
  · cases h

theorem tryLiteralTok_prefix (s tok : List Char) (h : tryLiteralTok s = some tok) :
    tok ≠ [] ∧ ∃ r, tok ++ r = s := by
  unfold tryLiteralTok at h
  split at h
  · rename_i c t
    split at h
    · split at h
      · rename_i r rs hdrop
        split at h
        · cases h
        · injection h with h
          subst h
          refine ⟨by simp, rs, ?_⟩
          have hsplit := takeWhile_dropWhile_eq (p := fun x => x != backtickChar) t
          rw [hdrop] at hsplit
          simp only [List.cons_append, List.append_assoc, List.singleton_append,
            List.nil_append]
          rw [hsplit]
      · cases h
    · cases h
  · cases h

theorem tryCommandTok_prefix (prev : Option Char) (s tok : List Char)
    (h : tryCommandTok prev s = some tok) : tok ≠ [] ∧ ∃ r, tok ++ r = s := by
  unfold tryCommandTok at h
  split at h
  · split at h
    · rename_i d r hdrop
      split at h
      · injection h with h
        subst h
        refine ⟨by simp, r, ?_⟩
        have hsplit := takeWhile_dropWhile_eq (p := fun x => x.isLower) s
        rw [hdrop] at hsplit
        rw [List.append_assoc]
        rw [show (['(', d, ')'] : List Char) ++ r = '(' :: d :: ')' :: r from rfl]
        exact hsplit
      · cases h
    · cases h
  · cases h

theorem tryAlts_prefix (prev : Option Char) (s tok : List Char)
    (h : tryAlts prev s = some tok) : tok ≠ [] ∧ ∃ r, tok ++ r = s := by
  unfold tryAlts at h
  split at h
  · rename_i t1 h1
    injection h with h
    subst h
    exact tryOptionTok_prefix s _ h1
  · split at h
    · rename_i t2 h2
      injection h with h
      subst h
      exact tryEnvTok_prefix prev s _ h2
    · split at h
      · rename_i t3 h3
        injection h with h
        subst h
        exact tryPathTok_prefix s _ h3
      · split at h
        · rename_i t4 h4
          injection h with h
          subst h
          exact tryLiteralTok_prefix s _ h4
        · exact tryCommandTok_prefix prev s tok h


/-- Flushing the pending gap adds exactly the gap's text. -/
theorem flush_concat (gapRev : List Char) (accRev : List TokenSegment) :
    (((if gapRev.isEmpty then accRev
        else (⟨gapRev.reverse, .plain⟩ : TokenSegment) :: accRev).reverse.map
      (fun s => s.text)).flatten)
      = ((accRev.reverse.map (fun s => s.text)).flatten) ++ gapRev.reverse := by
  by_cases h : gapRev.isEmpty
  · rw [if_pos h]
    rw [List.isEmpty_iff.mp h]
    simp
  · rw [if_neg h]
    simp

theorem tokenGo_concat : ∀ (suffix : List Char) (skip : Nat) (prev : Option Char)
    (gapRev : List Char) (accRev : List TokenSegment),
    ((tokenGo skip prev gapRev accRev suffix).map (fun s => s.text)).flatten
      = ((accRev.reverse.map (fun s => s.text)).flatten ++ gapRev.reverse)
        ++ suffix.drop skip := by
  intro suffix
  induction suffix with
  | nil =>
    intro skip prev gapRev accRev
    have hred : tokenGo skip prev gapRev accRev []
        = (if gapRev.isEmpty then accRev
            else (⟨gapRev.reverse, .plain⟩ : TokenSegment) :: accRev).reverse := by
      cases skip <;> rfl
    rw [hred, flush_concat]
    simp
  | cons c rest ih =>
    intro skip prev gapRev accRev
    cases skip with
    | succ skip' =>
      show ((tokenGo skip' (some c) gapRev accRev rest).map (fun s => s.text)).flatten = _
      rw [ih skip' (some c) gapRev accRev]
      rfl
    | zero =>
      have hstep : tokenGo 0 prev gapRev accRev (c :: rest)
          = match tryAlts prev (c :: rest) with
            | some tok =>
              tokenGo (tok.length - 1) (some c) []
                ((⟨tok, classifyToken tok⟩ : TokenSegment) ::
                  (if gapRev.isEmpty then accRev
                    else (⟨gapRev.reverse, .plain⟩ : TokenSegment) :: accRev)) rest
            | none => tokenGo 0 (some c) (c :: gapRev) accRev rest := by
        rw [tokenGo.eq_def]
      rcases halt : tryAlts prev (c :: rest) with _ | tok
      · rw [hstep, halt]
        rw [ih 0 (some c) (c :: gapRev) accRev]
        simp [List.append_assoc]
      · rw [hstep, halt]
        rw [ih (tok.length - 1) (some c) []
          ((⟨tok, classifyToken tok⟩ : TokenSegment) ::
            (if gapRev.isEmpty then accRev
              else (⟨gapRev.reverse, .plain⟩ : TokenSegment) :: accRev))]
        rcases tryAlts_prefix prev (c :: rest) tok halt with ⟨hne, r, hr⟩
        have hdrop : rest.drop (tok.length - 1) = r := by
          rcases tok with _ | ⟨t0, ts⟩
          · exact absurd rfl hne
          · have : t0 :: (ts ++ r) = c :: rest := by simpa using hr
            injection this with h1 h2
            subst h2
            simpa using List.drop_left ts r
        rw [List.reverse_cons, List.map_append, List.flatten_append, flush_concat, hdrop]
        simp only [List.drop_zero, List.map_cons, List.map_nil, List.flatten_cons,
          List.flatten_nil, List.append_nil, List.reverse_nil, List.append_assoc]
        rw [hr]

/-- C1: for every input line, the token segments returned by `tokenizeLine`
concatenate back to exactly that line — a content-preserving partition with
no characters dropped or added. -/
theorem c1_tokenize_concat (line : List Char) :
    ((tokenizeLine line).map (fun s => s.text)).flatten = line := by
  unfold tokenizeLine
  split
  · simp
  · rcases hseg : tokenGo 0 none [] [] line with _ | ⟨s0, segs⟩
    · simp only [List.isEmpty_nil, if_true]
      simp
    · have := tokenGo_concat line 0 none [] []
      rw [hseg] at this
      show (List.map (fun s => s.text)
          (if (s0 :: segs).isEmpty = true
            then [({ text := line, kind := TokenKind.plain } : TokenSegment)]
            else s0 :: segs)).flatten = line
      rw [if_neg (by simp)]
      rw [this]
      simp

/-! ### The heading detector: `parseSections` -/

/-- A Section Anchor as produced by the current `parseSections`
(`level` and optional `parentId` included). -/
structure SectionAnchor where
  id : List Char
  title : List Char
  startLine : Nat
  endLine : Nat
  level : Nat
  parentId : Option (List Char) := none
deriving DecidableEq

/-- An entry of `headingIndexes` / `normalizedHeadings`. -/
structure HeadingInfo where
  index : Nat
  title : List Char
  level : Nat
deriving DecidableEq

/-- `KNOWN_SECTION_HEADINGS` of `manParser.ts`. -/
def KNOWN_SECTION_HEADINGS : List (List Char) :=
  [("NAME").toList, ("SYNOPSIS").toList, ("DESCRIPTION").toList, ("OPTIONS").toList,
   ("COMMANDS").toList, ("EXAMPLES").toList, ("FILES").toList, ("ENVIRONMENT").toList,
   ("EXIT STATUS").toList, ("RETURN VALUE").toList, ("STANDARDS").toList,
   ("COMPATIBILITY").toList, ("BUGS").toList, ("SEE ALSO").toList, ("AUTHOR").toList,
   ("COPYRIGHT").toList]

/-- The class `[A-Z0-9_.+-]` of the manual-page title marker. -/
def isTitleChar (c : Char) : Bool :=
  c.isUpper || c.isDigit || c = '_' || c = '.' || c = '+' || c = '-'

/-- `isTitleLine` of `manParser.ts`: the anchored pattern
`[A-Z0-9_.+-]+` then a parenthesized run of digits, nothing else. -/
def isTitleLine (value : List Char) : Bool :=
  match value.dropWhile isTitleChar with
  | '(' :: rest =>
    !(value.takeWhile isTitleChar).isEmpty &&
    !(rest.takeWhile Char.isDigit).isEmpty &&
    rest.dropWhile Char.isDigit = [')']
  | _ => false

/-- `getIndentation` of `manParser.ts`: the length of the leading whitespace
run (`rawLine.match(/^\s*/)[0].length` — one column per character, a tab
included). -/
def getIndentation (rawLine : List Char) : Nat :=
  (rawLine.takeWhile jsIsSpace).length

/-- The body class of `uppercasePattern`: uppercase letters, digits,
whitespace and the punctuation set. -/
def isUppercasePatternChar (c : Char) : Bool :=
  c.isUpper || c.isDigit || jsIsSpace c || c = '-' || c = '_' || c = '/' ||
    c = '(' || c = ')' || c = ',' || c = '.' || c = '+'

/-- `uppercasePattern` (`^[A-Z0-9][A-Z0-9\s\-_/(),.+]*$`) as a test. -/
def uppercasePatternTest (line : List Char) : Bool :=
  match line with
  | c :: rest => (c.isUpper || c.isDigit) && rest.all isUppercasePatternChar
  | [] => false

/-- `isLikelyTopLevelHeading` of `manParser.ts`. `lines[index - 1]` at
`index = 0` is JavaScript's `lines[-1]`, i.e. `undefined`, hence `""`. -/
def isLikelyTopLevelHeading (lines : List (List Char)) (index : Nat) : Bool :=
  let rawLine := lines.getD index []
  let line := jsTrim rawLine
  let indentation := getIndentation rawLine
  if line = [] ∨ 72 < line.length then false
  else if isTitleLine line then false
  else if 1 < indentation then false
  else if KNOWN_SECTION_HEADINGS.contains line ∧ line = jsToUpper line then true
  else if ¬(uppercasePatternTest line = true) ∨ line ≠ jsToUpper line then false
  else
    (if index = 0 then [] else jsTrim (lines.getD (index - 1) [])) = [] ∨
      jsTrim (lines.getD (index + 1) []) = []

/-- `/^--?[a-zA-Z0-9]/` as a test. -/
def startsOptFlag : List Char → Bool
  | '-' :: '-' :: c :: _ => c.isAlphanum
  | '-' :: c :: _ => c.isAlphanum
  | _ => false

/-- `/^[a-zA-Z][\w-]*\(\d+\)$/` as a test. -/
def crossRefShape (l : List Char) : Bool :=
  match l with
  | c :: rest =>
    c.isAlpha &&
      (match rest.dropWhile isOptChar with
        | '(' :: r2 =>
          !(r2.takeWhile Char.isDigit).isEmpty && r2.dropWhile Char.isDigit = [')']
        | _ => false)
  | [] => false

/-- `line.split(/\s+/)` for a trimmed, nonempty line: the maximal runs of
non-whitespace characters (a trimmed line produces no empty pieces). -/
def splitWords (l : List Char) : List (List Char) :=
  (l.splitOnP jsIsSpace).filter (fun w => w ≠ [])

/-- `/^[A-Z]/` on a word. -/
def startsUpper : List Char → Bool
  | c :: _ => c.isUpper
  | [] => false

/-- The trailing-punctuation test of `isLikelySubHeading`. -/
def endsPunct (l : List Char) : Bool :=
  match l.getLast? with
  | some c => c = '.' || c = ':' || c = ';' || c = '!' || c = '?'
  | none => false

/-- `isLikelySubHeading` of `manParser.ts`. The float comparison
`startsUppercaseCount / words.length < 0.6` is modelled as
`5 * count < 3 * length`; with `1 ≤ length ≤ 6` (checked just before) the
double rounding of `count / length` and of the literal `0.6` never crosses
the rational threshold, so the two tests agree on the reachable range. -/
def isLikelySubHeading (lines : List (List Char)) (index : Nat) : Bool :=
  let rawLine := lines.getD index []
  let line := jsTrim rawLine
  let indentation := getIndentation rawLine
  if line = [] ∨ 64 < line.length ∨ isTitleLine line = true then false
  else if line = jsToLower line then false
  else if line.head? = some '-' ∨ line.head? = some '*' ∨ startsOptFlag line = true then
    false
  else if crossRefShape line then false
  else if endsPunct line then false
  else if (splitWords line).length = 0 ∨ 6 < (splitWords line).length then false
  else if line = jsToUpper line ∧ indentation ≤ 1 then false
  else if ¬(line = jsToUpper line) ∧
      ((splitWords line).filter startsUpper).length = 0 then false
  else if ¬(line = jsToUpper line) ∧ 1 < indentation then false
  else if ¬(line = jsToUpper line) ∧
      5 * ((splitWords line).filter startsUpper).length < 3 * (splitWords line).length then
    false
  else if ¬(line = jsToUpper line) ∧
      ¬(startsUpper ((splitWords line).headD []) = true) then false
  else
    ((if index = 0 then [] else jsTrim (lines.getD (index - 1) [])) = [] ∨
        jsTrim (lines.getD (index + 1) []) = []) ∨
      (jsTrim (lines.getD (index + 1) []) ≠ [] ∧
        indentation < getIndentation (lines.getD (index + 1) []))

/-- The first pass of `parseSections`: collect the heading lines in order
(top-level rule first, then sub-level rule). -/
def collectHeadings (lines : List (List Char)) : List HeadingInfo :=
  (List.range lines.length).filterMap fun index =>
    if isLikelyTopLevelHeading lines index then
      some ⟨index, jsTrim (lines.getD index []), 1⟩
    else if isLikelySubHeading lines index then
      some ⟨index, jsTrim (lines.getD index []), 2⟩
    else none

/-- The normalization pass: keep level-1 headings always and level-2
headings only once a level-1 heading has been seen. -/
def normalizeHeadings : Bool → List HeadingInfo → List HeadingInfo
  | _, [] => []
  | seenTopLevel, h :: t =>
    if h.level = 1 then h :: normalizeHeadings true t
    else if seenTopLevel then h :: normalizeHeadings seenTopLevel t
    else normalizeHeadings seenTopLevel t

/-- Collapse every run of characters outside `[a-z0-9]` to one hyphen. -/
def collapseNonAlnum : List Char → List Char
  | [] => []
  | c :: t =>
    if c.isLower || c.isDigit then c :: collapseNonAlnum t
    else
      match collapseNonAlnum t with
      | '-' :: rest => '-' :: rest
      | other => '-' :: other

/-- `slugify` of `manParser.ts`: lower-case, collapse non-alphanumeric runs
to one hyphen, strip leading and trailing hyphens, truncate to 50. -/
def slugify (value : List Char) : List Char :=
  ((((collapseNonAlnum (jsToLower value)).dropWhile (fun c => c = '-')).reverse.dropWhile
    (fun c => c = '-')).reverse).take 50

/-- ``slugify(title) || `section-${position + 1}` ``. -/
def baseIdOf (title : List Char) (position : Nat) : List Char :=
  if slugify title = [] then ("section-").toList ++ Nat.toDigits 10 (position + 1)
  else slugify title

/-- The id picked once the collision counter is known: unsuffixed for the
first occurrence of a base slug, and suffixed with the occurrence number
(2, 3, ...) afterwards. -/
def idWithSeen (baseId : List Char) (seen : Nat) : List Char :=
  if seen = 0 then baseId else baseId ++ '-' :: Nat.toDigits 10 (seen + 1)

/-- The id-assignment pass (`idCounts` is the `Map` of base-slug counters,
modelled as a function with default 0). -/
def assignIdsGo (linesLen : Nat) :
    List HeadingInfo → Nat → (List Char → Nat) → List SectionAnchor
  | [], _, _ => []
  | h :: t, position, counts =>
    let baseId := baseIdOf h.title position
    let seen := counts baseId
    { id := idWithSeen baseId seen,
      title := h.title, startLine := h.index, endLine := max (linesLen - 1) h.index,
      level := h.level, parentId := none } ::
      assignIdsGo linesLen t (position + 1)
        (fun b => if b = baseId then seen + 1 else counts b)

/-- `.map((x, position) => f position x)` with an explicit start index. -/
def mapIdxFrom (f : Nat → α → β) : Nat → List α → List β
  | _, [] => []
  | i, a :: t => f i a :: mapIdxFrom f (i + 1) t

/-- The backward walk to the nearest preceding level-1 anchor. -/
def findParentId (anchors : List SectionAnchor) (position : Nat) : Option (List Char) :=
  ((anchors.take position).reverse.find? (fun a => a.level = 1)).map (fun a => a.id)

/-- The parent-assignment pass of `parseSections`. -/
def setParents (anchors : List SectionAnchor) : List SectionAnchor :=
  mapIdxFrom
    (fun position a =>
      if a.level = 2 then { a with parentId := findParentId anchors position } else a)
    0 anchors

/-- The `endLine` computed for one anchor: one before the next anchor whose
level is at most this one's, else the document's last line; clamped below by
`startLine`. -/
def computeEndLine (anchors : List SectionAnchor) (linesLen : Nat) (position : Nat)
    (a : SectionAnchor) : Nat :=
  match (anchors.drop (position + 1)).find? (fun b => b.level ≤ a.level) with
  | some b => max a.startLine (b.startLine - 1)
  | none => max a.startLine (linesLen - 1)

/-- The range-computation pass of `parseSections`. -/
def setEndLines (anchors : List SectionAnchor) (linesLen : Nat) : List SectionAnchor :=
  mapIdxFrom
    (fun position a => { a with endLine := computeEndLine anchors linesLen position a })
    0 anchors

/-- The synthetic whole-document anchor. -/
def documentFallback (linesLen : Nat) : SectionAnchor :=
  { id := ("document").toList, title := ("DOCUMENT").toList, startLine := 0,
    endLine := max (linesLen - 1) 0, level := 1, parentId := none }

/-- `parseSections` of `manParser.ts`. -/
def parseSections (lines : List (List Char)) : List SectionAnchor :=
  if lines.length = 0 then []
  else if (collectHeadings lines).isEmpty then [documentFallback lines.length]
  else if (normalizeHeadings false (collectHeadings lines)).isEmpty then
    [documentFallback lines.length]
  else
    setEndLines
      (setParents
        (assignIdsGo lines.length (normalizeHeadings false (collectHeadings lines)) 0
          (fun _ => 0)))
      lines.length

/-! ### C6: the empty-document and no-heading fallbacks -/

/-- C6 fails on the empty line sequence: `parseSections` returns the empty
list there, not the single synthetic whole-document anchor. -/
theorem c6_counterexample :
    parseSections ([] : List (List Char)) = [] ∧
    (parseSections ([] : List (List Char))).length ≠ 1 := by
  decide

/-- C6 (amended): for a nonempty line sequence in which no heading survives
(none detected, or every detected one a level-2 dropped for lack of a
preceding level-1), `parseSections` returns the single synthetic
whole-document anchor; for the empty sequence it returns the empty list
(shown separately). -/
theorem c6_amended (lines : List (List Char)) (h : lines ≠ [])
    (hnone : normalizeHeadings false (collectHeadings lines) = []) :
    parseSections lines = [documentFallback lines.length] := by
  unfold parseSections
  rw [if_neg (by simpa using h)]
  by_cases hc : (collectHeadings lines).isEmpty
  · rw [if_pos hc]
  · rw [if_neg hc, if_pos (by rw [hnone]; rfl)]

/-- Witness for the amended C6 on a one-line document with no heading. -/
theorem c6_amended_witness :
    parseSections [("hello world").toList] = [documentFallback 1] :=
  c6_amended [("hello world").toList] (by simp) (by decide)

/-! ### C8: how indentation is measured -/

/-- C8 fails as stated: a line whose leading whitespace is a single tab is
detected as a top-level heading, because `getIndentation` counts characters
(`match(/^\s*/)[0].length`), so a tab is 1 column, not 8, and 1 ≤ 1 passes
the indentation gate. -/
theorem c8_counterexample :
    isLikelyTopLevelHeading [('\t' :: ("NAME").toList)] 0 = true := by
  decide

theorem topLevel_indentation_gate (lines : List (List Char)) (i : Nat)
    (hind : 1 < getIndentation (lines.getD i [])) :
    isLikelyTopLevelHeading lines i = false := by
  unfold isLikelyTopLevelHeading
  dsimp only
  repeat' split
  all_goals first
    | rfl
    | exact absurd hind (by assumption)

theorem subHeading_uppercase_gate (lines : List (List Char)) (i : Nat)
    (huc : jsTrim (lines.getD i []) = jsToUpper (jsTrim (lines.getD i [])))
    (hind : getIndentation (lines.getD i []) ≤ 1) :
    isLikelySubHeading lines i = false := by
  unfold isLikelySubHeading
  dsimp only
  by_cases h1 : jsTrim (lines.getD i []) = [] ∨
      64 < (jsTrim (lines.getD i [])).length ∨
      isTitleLine (jsTrim (lines.getD i [])) = true
  · rw [if_pos h1]
  rw [if_neg h1]
  by_cases h2 : jsTrim (lines.getD i []) = jsToLower (jsTrim (lines.getD i []))
  · rw [if_pos h2]
  rw [if_neg h2]
  by_cases h3 : (jsTrim (lines.getD i [])).head? = some '-' ∨
      (jsTrim (lines.getD i [])).head? = some '*' ∨
      startsOptFlag (jsTrim (lines.getD i [])) = true
  · rw [if_pos h3]
  rw [if_neg h3]
  by_cases h4 : crossRefShape (jsTrim (lines.getD i [])) = true
  · rw [if_pos h4]
  rw [if_neg h4]
  by_cases h5 : endsPunct (jsTrim (lines.getD i [])) = true
  · rw [if_pos h5]
  rw [if_neg h5]
  by_cases h6 : (splitWords (jsTrim (lines.getD i []))).length = 0 ∨
      6 < (splitWords (jsTrim (lines.getD i []))).length
  · rw [if_pos h6]
  rw [if_neg h6, if_pos (And.intro huc hind)]

/-- C8 (amended): heading detection measures a line's leading indentation as
the number of leading whitespace characters — a tab counts as 1 column, not
8. A line qualifies as a top-level heading only if that count is ≤ 1, a
fully-uppercase sub-level candidate only if that count is > 1, and a line
whose leading whitespace is a single tab (count 1) can therefore be detected
as a top-level heading. -/
theorem c8_amended :
    (∀ (lines : List (List Char)) (i : Nat),
      isLikelyTopLevelHeading lines i = true →
      getIndentation (lines.getD i []) ≤ 1) ∧
    (∀ (lines : List (List Char)) (i : Nat),
      isLikelySubHeading lines i = true →
      jsTrim (lines.getD i []) = jsToUpper (jsTrim (lines.getD i [])) →
      1 < getIndentation (lines.getD i [])) ∧
    getIndentation ['\t'] = 1 ∧
    isLikelyTopLevelHeading [('\t' :: ("NAME").toList)] 0 = true := by
  refine ⟨?_, ?_, by decide, by decide⟩
  · intro lines i h
    by_contra hind
    rw [topLevel_indentation_gate lines i (by omega)] at h
    cases h
  · intro lines i h huc
    by_contra hind
    rw [subHeading_uppercase_gate lines i huc (by omega)] at h
    cases h

/-! ### C9: slug-based ids with occurrence-order disambiguation -/

/-- The base slugs of a heading list, positions starting at `pos`. -/
def basesFrom (pos : Nat) (hs : List HeadingInfo) : List (List Char) :=
  mapIdxFrom (fun p h => baseIdOf h.title p) pos hs

/-- The number of entries of `l` equal to `b`. -/
def cntBase (b : List Char) (l : List (List Char)) : Nat :=
  l.countP (fun x => x = b)

theorem basesFrom_nil (pos : Nat) : basesFrom pos [] = [] := rfl

theorem basesFrom_cons (pos : Nat) (h : HeadingInfo) (t : List HeadingInfo) :
    basesFrom pos (h :: t) = baseIdOf h.title pos :: basesFrom (pos + 1) t := rfl

theorem cntBase_append (b : List Char) (l1 l2 : List (List Char)) :
    cntBase b (l1 ++ l2) = cntBase b l1 + cntBase b l2 :=
  List.countP_append _ l1 l2

theorem cntBase_singleton (b x : List Char) :
    cntBase b [x] = if x = b then 1 else 0 := by
  simp [cntBase, List.countP_cons]

theorem assignIdsGo_cons (L : Nat) (h : HeadingInfo) (t : List HeadingInfo)
    (pos : Nat) (counts : List Char → Nat) :
    assignIdsGo L (h :: t) pos counts =
      { id := idWithSeen (baseIdOf h.title pos) (counts (baseIdOf h.title pos)),
        title := h.title, startLine := h.index, endLine := max (L - 1) h.index,
        level := h.level, parentId := none } ::
        assignIdsGo L t (pos + 1)
          (fun b => if b = baseIdOf h.title pos
            then counts (baseIdOf h.title pos) + 1 else counts b) := rfl

theorem mapIdxFrom_getElem? (f : Nat → α → β) :
    ∀ (l : List α) (i p : Nat), (mapIdxFrom f i l)[p]? = (l[p]?).map (f (i + p)) := by
  intro l
  induction l with
  | nil => intro i p; simp [mapIdxFrom]
  | cons a t ih =>
    intro i p
    cases p with
    | zero =>
      rw [show mapIdxFrom f i (a :: t) = f i a :: mapIdxFrom f (i + 1) t from rfl,
        List.getElem?_cons_zero, List.getElem?_cons_zero, Option.map_some',
        show i + 0 = i from rfl]
    | succ q =>
      rw [show mapIdxFrom f i (a :: t) = f i a :: mapIdxFrom f (i + 1) t from rfl,
        List.getElem?_cons_succ, List.getElem?_cons_succ, ih (i + 1) q,
        show i + 1 + q = i + (q + 1) from by omega]

theorem mapIdxFrom_map_proj (f : Nat → α → β) (g : β → γ) (g0 : α → γ)
    (hg : ∀ j x, g (f j x) = g0 x) :
    ∀ (l : List α) (i : Nat), (mapIdxFrom f i l).map g = l.map g0 := by
  intro l
  induction l with
  | nil => intro i; rfl
  | cons a t ih => intro i; simp only [mapIdxFrom, List.map_cons, hg, ih]

theorem mem_mapIdxFrom (f : Nat → α → β) :
    ∀ (l : List α) (i : Nat) (y : β),
      y ∈ mapIdxFrom f i l → ∃ j x, x ∈ l ∧ y = f j x := by
  intro l
  induction l with
  | nil => intro i y hy; simp [mapIdxFrom] at hy
  | cons a t ih =>
    intro i y hy
    rw [show mapIdxFrom f i (a :: t) = f i a :: mapIdxFrom f (i + 1) t from rfl,
      List.mem_cons] at hy
    rcases hy with hy | hy
    · exact ⟨i, a, List.mem_cons_self a t, hy⟩
    · obtain ⟨j, x, hx, hyx⟩ := ih (i + 1) y hy
      exact ⟨j, x, List.mem_cons_of_mem a hx, hyx⟩

theorem assignIdsGo_map_level (L : Nat) :
    ∀ (hs : List HeadingInfo) (pos : Nat) (counts : List Char → Nat),
      (assignIdsGo L hs pos counts).map SectionAnchor.level =
        hs.map HeadingInfo.level := by
  intro hs
  induction hs with
  | nil => intro pos counts; rfl
  | cons h t ih =>
    intro pos counts
    rw [assignIdsGo_cons]
    simp only [List.map_cons]
    rw [ih]

theorem assignIdsGo_map_start (L : Nat) :
    ∀ (hs : List HeadingInfo) (pos : Nat) (counts : List Char → Nat),
      (assignIdsGo L hs pos counts).map SectionAnchor.startLine =
        hs.map HeadingInfo.index := by
  intro hs
  induction hs with
  | nil => intro pos counts; rfl
  | cons h t ih =>
    intro pos counts
    rw [assignIdsGo_cons]
    simp only [List.map_cons]
    rw [ih]

theorem assignIdsGo_getElem?_id (L : Nat) :
    ∀ (hs : List HeadingInfo) (pos : Nat) (counts : List Char → Nat)
      (pre : List (List Char)), (∀ b, counts b = cntBase b pre) →
      ∀ (p : Nat),
        ((assignIdsGo L hs pos counts)[p]?).map SectionAnchor.id =
          (hs[p]?).map (fun h =>
            idWithSeen (baseIdOf h.title (pos + p))
              (cntBase (baseIdOf h.title (pos + p))
                (pre ++ basesFrom pos (hs.take p)))) := by
  intro hs
  induction hs with
  | nil =>
    intro pos counts pre hc p
    rw [show assignIdsGo L [] pos counts = [] from rfl]
    simp
  | cons h t ih =>
    intro pos counts pre hc p
    cases p with
    | zero =>
      rw [assignIdsGo_cons, List.getElem?_cons_zero, List.getElem?_cons_zero]
      simp only [Option.map_some', List.take_zero, basesFrom_nil, List.append_nil]
      rw [show pos + 0 = pos from rfl, hc (baseIdOf h.title pos)]
    | succ q =>
      rw [assignIdsGo_cons, List.getElem?_cons_succ, List.getElem?_cons_succ]
      have hc2 : ∀ b,
          (if b = baseIdOf h.title pos
            then counts (baseIdOf h.title pos) + 1 else counts b) =
          cntBase b (pre ++ [baseIdOf h.title pos]) := by
        intro b
        rw [cntBase_append, cntBase_singleton]
        by_cases hb : b = baseIdOf h.title pos
        · subst hb
          rw [if_pos rfl, if_pos rfl, hc]
        · rw [if_neg hb, if_neg (fun e => hb e.symm), hc b, Nat.add_zero]
      rw [ih (pos + 1) _ (pre ++ [baseIdOf h.title pos]) hc2 q]
      simp only [List.take_succ_cons, basesFrom_cons, List.append_assoc,
        List.singleton_append, show pos + 1 + q = pos + (q + 1) from by omega]

theorem parseSections_main (lines : List (List Char))
    (h0 : ¬lines.length = 0)
    (hn : ¬normalizeHeadings false (collectHeadings lines) = []) :
    parseSections lines =
      setEndLines
        (setParents (assignIdsGo lines.length
          (normalizeHeadings false (collectHeadings lines)) 0 (fun _ => 0)))
        lines.length := by
  have hc : ¬(collectHeadings lines).isEmpty = true := by
    intro h
    rw [List.isEmpty_iff] at h
    exact hn (by rw [h]; rfl)
  have hnn : ¬(normalizeHeadings false (collectHeadings lines)).isEmpty = true := by
    intro h
    exact hn (List.isEmpty_iff.mp h)
  unfold parseSections
  rw [if_neg h0, if_neg hc, if_neg hnn]

theorem setParents_getElem? (as : List SectionAnchor) (p : Nat) :
    (setParents as)[p]? = (as[p]?).map
      (fun a => if a.level = 2 then { a with parentId := findParentId as p } else a) := by
  unfold setParents
  rw [mapIdxFrom_getElem?, Nat.zero_add]

theorem setEndLines_getElem? (as : List SectionAnchor) (L p : Nat) :
    (setEndLines as L)[p]? =
      (as[p]?).map (fun a => { a with endLine := computeEndLine as L p a }) := by
  unfold setEndLines
  rw [mapIdxFrom_getElem?, Nat.zero_add]

theorem setParents_map_start (as : List SectionAnchor) :
    (setParents as).map SectionAnchor.startLine = as.map SectionAnchor.startLine := by
  unfold setParents
  refine mapIdxFrom_map_proj _ SectionAnchor.startLine SectionAnchor.startLine
    (fun j x => ?_) as 0
  show SectionAnchor.startLine
      (if x.level = 2 then { x with parentId := findParentId as j } else x) =
    x.startLine
  split <;> rfl

theorem setParents_map_level (as : List SectionAnchor) :
    (setParents as).map SectionAnchor.level = as.map SectionAnchor.level := by
  unfold setParents
  refine mapIdxFrom_map_proj _ SectionAnchor.level SectionAnchor.level
    (fun j x => ?_) as 0
  show SectionAnchor.level
      (if x.level = 2 then { x with parentId := findParentId as j } else x) =
    x.level
  split <;> rfl

theorem setParents_map_id (as : List SectionAnchor) :
    (setParents as).map SectionAnchor.id = as.map SectionAnchor.id := by
  unfold setParents
  refine mapIdxFrom_map_proj _ SectionAnchor.id SectionAnchor.id
    (fun j x => ?_) as 0
  show SectionAnchor.id
      (if x.level = 2 then { x with parentId := findParentId as j } else x) =
    x.id
  split <;> rfl

theorem setEndLines_map_start (as : List SectionAnchor) (L : Nat) :
    (setEndLines as L).map SectionAnchor.startLine = as.map SectionAnchor.startLine := by
  unfold setEndLines
  refine mapIdxFrom_map_proj _ SectionAnchor.startLine SectionAnchor.startLine
    (fun j x => ?_) as 0
  rfl

theorem setEndLines_map_level (as : List SectionAnchor) (L : Nat) :
    (setEndLines as L).map SectionAnchor.level = as.map SectionAnchor.level := by
  unfold setEndLines
  refine mapIdxFrom_map_proj _ SectionAnchor.level SectionAnchor.level
    (fun j x => ?_) as 0
  rfl

theorem setEndLines_map_id (as : List SectionAnchor) (L : Nat) :
    (setEndLines as L).map SectionAnchor.id = as.map SectionAnchor.id := by
  unfold setEndLines
  refine mapIdxFrom_map_proj _ SectionAnchor.id SectionAnchor.id
    (fun j x => ?_) as 0
  rfl

/-- C9: within one `parseSections` pass, the anchor at position `p` carries the
id built from the base slug of its title — `slugify` (lower-case,
non-alphanumeric runs collapsed to one hyphen, edge hyphens stripped, 50-char
truncation) with the `section-(p+1)` fallback for an empty slug — left
unsuffixed on its first occurrence and suffixed `-k` for the k-th occurrence
of the same base slug among the earlier anchors. -/
theorem c9_ids (lines : List (List Char)) (p : Nat)
    (h0 : ¬lines.length = 0)
    (hn : ¬normalizeHeadings false (collectHeadings lines) = []) :
    ((parseSections lines)[p]?).map SectionAnchor.id =
      ((normalizeHeadings false (collectHeadings lines))[p]?).map (fun h =>
        idWithSeen (baseIdOf h.title p)
          (cntBase (baseIdOf h.title p)
            (basesFrom 0 ((normalizeHeadings false (collectHeadings lines)).take p)))) := by
  rw [parseSections_main lines h0 hn, ← List.getElem?_map, setEndLines_map_id,
    setParents_map_id, List.getElem?_map,
    assignIdsGo_getElem?_id lines.length
      (normalizeHeadings false (collectHeadings lines)) 0 (fun _ => 0) []
      (fun b => rfl) p]
  simp only [Nat.zero_add, List.nil_append]

/-- Witness for C9: in the document NAME / blank / NAME, both headings slug to
"name"; the first anchor keeps it and the second gets "name-2". -/
theorem c9_ids_witness :
    (((parseSections [("NAME").toList, [], ("NAME").toList])[1]?).map SectionAnchor.id =
        some (("name-2").toList)) ∧
      ¬([("NAME").toList, [], ("NAME").toList] : List (List Char)).length = 0 := by
  refine ⟨?_, by decide⟩
  rw [c9_ids [("NAME").toList, [], ("NAME").toList] 1 (by decide) (by decide)]
  decide

/-! ### C7: anchor ordering, ranges and parent links -/

theorem pairwise_filterMap_of {R : α → α → Prop} (f : β → Option α) :
    ∀ (l : List β),
      l.Pairwise (fun x y => ∀ b, f x = some b → ∀ b', f y = some b' → R b b') →
      (l.filterMap f).Pairwise R := by
  intro l
  induction l with
  | nil => intro _; simp
  | cons a t ih =>
    intro hp
    rw [List.pairwise_cons] at hp
    obtain ⟨ha, ht⟩ := hp
    rcases hf : f a with _ | b
    · rw [List.filterMap_cons_none hf]
      exact ih ht
    · rw [List.filterMap_cons_some hf]
      refine List.Pairwise.cons ?_ (ih ht)
      intro b' hb'
      obtain ⟨x, hx, hfx⟩ := List.mem_filterMap.mp hb'
      exact ha x hx b hf b' hfx

theorem headingAt_index (lines : List (List Char)) (i : Nat) (h : HeadingInfo) :
    (if isLikelyTopLevelHeading lines i then
        some (⟨i, jsTrim (lines.getD i []), 1⟩ : HeadingInfo)
      else if isLikelySubHeading lines i then
        some (⟨i, jsTrim (lines.getD i []), 2⟩ : HeadingInfo)
      else none) = some h → h.index = i := by
  intro hf
  split at hf
  · injection hf with hf
    rw [← hf]
  · split at hf
    · injection hf with hf
      rw [← hf]
    · cases hf

theorem collectHeadings_pairwise (lines : List (List Char)) :
    (collectHeadings lines).Pairwise (fun x y => x.index < y.index) := by
  unfold collectHeadings
  refine pairwise_filterMap_of _ (List.range lines.length) ?_
  refine List.Pairwise.imp ?_ (List.pairwise_lt_range lines.length)
  intro i j hij b hb b' hb'
  rw [headingAt_index lines i b hb, headingAt_index lines j b' hb']
  exact hij

theorem normalizeHeadings_cons (seen : Bool) (h : HeadingInfo) (t : List HeadingInfo) :
    normalizeHeadings seen (h :: t) =
      if h.level = 1 then h :: normalizeHeadings true t
      else if seen = true then h :: normalizeHeadings seen t
      else normalizeHeadings seen t := rfl

theorem normalizeHeadings_cons_one (h : HeadingInfo) (t : List HeadingInfo)
    (seen : Bool) (h1 : h.level = 1) :
    normalizeHeadings seen (h :: t) = h :: normalizeHeadings true t := by
  rw [normalizeHeadings_cons, if_pos h1]

theorem normalizeHeadings_cons_true (h : HeadingInfo) (t : List HeadingInfo)
    (h1 : ¬h.level = 1) :
    normalizeHeadings true (h :: t) = h :: normalizeHeadings true t := by
  rw [normalizeHeadings_cons, if_neg h1, if_pos rfl]

theorem normalizeHeadings_cons_false (h : HeadingInfo) (t : List HeadingInfo)
    (h1 : ¬h.level = 1) :
    normalizeHeadings false (h :: t) = normalizeHeadings false t := by
  rw [normalizeHeadings_cons, if_neg h1, if_neg (by decide)]

theorem normalizeHeadings_sublist :
    ∀ (l : List HeadingInfo) (seen : Bool), (normalizeHeadings seen l).Sublist l := by
  intro l
  induction l with
  | nil =>
    intro seen
    rw [show normalizeHeadings seen [] = [] from rfl]
  | cons h t ih =>
    intro seen
    by_cases h1 : h.level = 1
    · rw [normalizeHeadings_cons_one h t seen h1]
      exact List.Sublist.cons₂ h (ih true)
    · cases seen with
      | true =>
        rw [normalizeHeadings_cons_true h t h1]
        exact List.Sublist.cons₂ h (ih true)
      | false =>
        rw [normalizeHeadings_cons_false h t h1]
        exact List.Sublist.cons h (ih false)

theorem normalized_pairwise (lines : List (List Char)) :
    ((normalizeHeadings false (collectHeadings lines)).map HeadingInfo.index).Pairwise
      (· < ·) := by
  rw [List.pairwise_map]
  exact List.Pairwise.sublist (normalizeHeadings_sublist (collectHeadings lines) false)
    (collectHeadings_pairwise lines)

theorem normalizeHeadings_false_parent :
    ∀ (l : List HeadingInfo) (p : Nat) (a : HeadingInfo),
      (normalizeHeadings false l)[p]? = some a → ¬a.level = 1 →
      ∃ q, q < p ∧ ∃ g, (normalizeHeadings false l)[q]? = some g ∧ g.level = 1 := by
  intro l
  induction l with
  | nil =>
    intro p a hp
    rw [show normalizeHeadings false ([] : List HeadingInfo) = [] from rfl,
      List.getElem?_nil] at hp
    cases hp
  | cons h t ih =>
    intro p a hp hl
    by_cases h1 : h.level = 1
    · rw [normalizeHeadings_cons_one h t false h1] at hp ⊢
      cases p with
      | zero =>
        rw [List.getElem?_cons_zero] at hp
        injection hp with hp
        rw [← hp] at hl
        exact absurd h1 hl
      | succ q =>
        exact ⟨0, Nat.succ_pos q, h, List.getElem?_cons_zero, h1⟩
    · rw [normalizeHeadings_cons_false h t h1] at hp ⊢
      exact ih p a hp hl

theorem computeEndLine_ge (as : List SectionAnchor) (L j : Nat) (a : SectionAnchor) :
    a.startLine ≤ computeEndLine as L j a := by
  unfold computeEndLine
  split
  · exact Nat.le_max_left _ _
  · exact Nat.le_max_left _ _

theorem startLine_le_endLine_setEndLines (as : List SectionAnchor) (L : Nat) :
    ∀ a ∈ setEndLines as L, a.startLine ≤ a.endLine := by
  intro a ha
  unfold setEndLines at ha
  obtain ⟨j, x, hx, rfl⟩ := mem_mapIdxFrom _ _ _ _ ha
  exact computeEndLine_ge as L j x

theorem parents_ok_pipeline (L : Nat) (hs : List HeadingInfo)
    (hprop : ∀ (p : Nat) (h : HeadingInfo), hs[p]? = some h → ¬h.level = 1 →
      ∃ q, q < p ∧ ∃ g, hs[q]? = some g ∧ g.level = 1) :
    ∀ (p : Nat) (a : SectionAnchor),
      (setEndLines (setParents (assignIdsGo L hs 0 (fun _ => 0))) L)[p]? = some a →
      a.level = 2 →
      ∃ q, q < p ∧ ∃ b,
        (setEndLines (setParents (assignIdsGo L hs 0 (fun _ => 0))) L)[q]? = some b ∧
        b.level = 1 ∧ a.parentId = some b.id := by
  intro p a hp h2
  rw [setEndLines_getElem?, setParents_getElem?] at hp
  rcases hA : (assignIdsGo L hs 0 (fun _ => 0))[p]? with _ | a0
  · rw [hA] at hp
    cases hp
  rw [hA, Option.map_some', Option.map_some'] at hp
  injection hp with hp
  have hl0 : a0.level = 2 := by
    by_cases hA2 : a0.level = 2
    · exact hA2
    · rw [← hp, if_neg hA2] at h2
      exact absurd h2 hA2
  rw [if_pos hl0] at hp
  have hpar : a.parentId = findParentId (assignIdsGo L hs 0 (fun _ => 0)) p := by
    rw [← hp]
  have hAl : (assignIdsGo L hs 0 (fun _ => 0)).map SectionAnchor.level =
      hs.map HeadingInfo.level := assignIdsGo_map_level L hs 0 (fun _ => 0)
  have hhl : (hs[p]?).map HeadingInfo.level = some 2 := by
    rw [← List.getElem?_map, ← hAl, List.getElem?_map, hA, Option.map_some', hl0]
  rcases hhp : hs[p]? with _ | h0a
  · rw [hhp] at hhl
    cases hhl
  rw [hhp, Option.map_some'] at hhl
  injection hhl with hhl
  obtain ⟨q, hqp, g, hgq, hg1⟩ := hprop p h0a hhp (by rw [hhl]; decide)
  have hAq : ((assignIdsGo L hs 0 (fun _ => 0))[q]?).map SectionAnchor.level = some 1 := by
    rw [← List.getElem?_map, hAl, List.getElem?_map, hgq, Option.map_some', hg1]
  rcases hAq' : (assignIdsGo L hs 0 (fun _ => 0))[q]? with _ | b0
  · rw [hAq'] at hAq
    cases hAq
  rw [hAq', Option.map_some'] at hAq
  injection hAq with hb0l
  have hmem : b0 ∈ (assignIdsGo L hs 0 (fun _ => 0)).take p := by
    rw [List.mem_iff_getElem?]
    exact ⟨q, by rw [List.getElem?_take, if_pos hqp]; exact hAq'⟩
  have hfind : (((assignIdsGo L hs 0 (fun _ => 0)).take p).reverse.find?
      (fun x => x.level = 1)).isSome = true := by
    rw [List.find?_isSome]
    exact ⟨b0, List.mem_reverse.mpr hmem, by rw [hb0l]; rfl⟩
  obtain ⟨bf, hbf⟩ := Option.isSome_iff_exists.mp hfind
  have hfp : findParentId (assignIdsGo L hs 0 (fun _ => 0)) p = some bf.id := by
    unfold findParentId
    rw [hbf, Option.map_some']
  have hbf1 : bf.level = 1 := by
    have hps := List.find?_some hbf
    simpa using hps
  have hbfmem : bf ∈ (assignIdsGo L hs 0 (fun _ => 0)).take p :=
    List.mem_reverse.mp (List.mem_of_find?_eq_some hbf)
  obtain ⟨q0, hq0⟩ := List.mem_iff_getElem?.mp hbfmem
  have hq0p : q0 < p := by
    by_contra hge
    rw [List.getElem?_take, if_neg hge] at hq0
    cases hq0
  rw [List.getElem?_take, if_pos hq0p] at hq0
  refine ⟨q0, hq0p, ?_⟩
  rw [setEndLines_getElem?, setParents_getElem?, hq0, Option.map_some', Option.map_some']
  refine ⟨_, rfl, ?_, ?_⟩
  · rw [if_neg (by rw [hbf1]; decide)]
    exact hbf1
  · rw [hpar, hfp, if_neg (by rw [hbf1]; decide)]

/-- C7: every anchor returned by `parseSections` has `startLine ≤ endLine`,
the anchors are listed in strictly increasing `startLine` order, and every
level-2 anchor's `parentId` is the id of a level-1 anchor that appears
earlier in the returned list (a level-2 heading with no preceding level-1
heading never survives normalization). -/
theorem c7_anchor_invariants (lines : List (List Char)) :
    (∀ a ∈ parseSections lines, a.startLine ≤ a.endLine) ∧
    ((parseSections lines).map SectionAnchor.startLine).Pairwise (· < ·) ∧
    (∀ (p : Nat) (a : SectionAnchor),
      (parseSections lines)[p]? = some a → a.level = 2 →
      ∃ q, q < p ∧ ∃ b, (parseSections lines)[q]? = some b ∧ b.level = 1 ∧
        a.parentId = some b.id) := by
  by_cases h0 : lines.length = 0
  · rw [show parseSections lines = [] from by unfold parseSections; rw [if_pos h0]]
    refine ⟨by simp, by simp, ?_⟩
    intro p a hp
    rw [List.getElem?_nil] at hp
    cases hp
  by_cases hn : normalizeHeadings false (collectHeadings lines) = []
  · have hres : parseSections lines = [documentFallback lines.length] := by
      unfold parseSections
      rw [if_neg h0]
      by_cases hc : (collectHeadings lines).isEmpty = true
      · rw [if_pos hc]
      · rw [if_neg hc, if_pos (by rw [List.isEmpty_iff]; exact hn)]
    rw [hres]
    refine ⟨?_, by simp, ?_⟩
    · intro a ha
      rw [List.mem_singleton] at ha
      subst ha
      exact Nat.zero_le _
    · intro p a hp h2
      cases p with
      | zero =>
        rw [List.getElem?_cons_zero] at hp
        injection hp with hp
        rw [← hp] at h2
        simp [documentFallback] at h2
      | succ q =>
        rw [List.getElem?_cons_succ, List.getElem?_nil] at hp
        cases hp
  · rw [parseSections_main lines h0 hn]
    refine ⟨startLine_le_endLine_setEndLines _ _, ?_, ?_⟩
    · rw [setEndLines_map_start, setParents_map_start, assignIdsGo_map_start]
      exact normalized_pairwise lines
    · exact parents_ok_pipeline lines.length _
        (normalizeHeadings_false_parent (collectHeadings lines))
